import Mathlib

/-!
Verification of the lexer and recursive-descent parser of compiler.py
(a small C-like language front end).

The Python source is embedded shallowly:

* `next_state`, the finite-state transition function, is translated line by
  line; Python character-class predicates (`str.isspace`, `str.isalpha`,
  `str.isdigit`, `str.isalnum`) are modelled by the explicit ASCII
  predicates `isSpacePy`, `isAlphaPy`, `isDigitPy`, `isAlnumPy` below.
* `lexical_analyzer_from_text` is embedded as `lexLoopF`; its inner
  extension loop is the structurally recursive `extend`.  The outer loop
  consumes at least one character per iteration, so it is driven by a fuel
  counter that the wrapper instantiates with a provably sufficient value
  (one more than the input length); `lexF_fuel_irrel` shows the fuel is
  irrelevant beyond that bound.
* the `Parser` class keeps a cursor into an immutable token list; this is
  embedded by passing the remaining suffix of the token list explicitly.
  Each Python method becomes a function returning the parsed node together
  with the remaining suffix, inside `Except PErr`.  `PErr.unexpected tok`
  models `SyntaxError(f"Unexpected token {tok}")` (all three raise sites
  carry the offending token); `PErr.outOfRange` models the `IndexError`
  that `self.tokens[self.current]` would raise past the end of the list;
  `PErr.outOfFuel` is an artifact of the fuel-based embedding, and
  `parser_inv` proves it is never produced at the fuel `parse` supplies.
-/

namespace LexParse

/-- ASCII model of Python `str.isspace` (restricted to one-byte space
characters: space, tab, newline, carriage return, vertical tab, form feed). -/
def isSpacePy (c : Char) : Bool :=
  c = ' ' || c = '\t' || c = '\n' || c = '\r' || c = '\x0b' || c = '\x0c'

/-- ASCII model of Python `str.isalpha`. -/
def isAlphaPy (c : Char) : Bool := c.isAlpha

/-- ASCII model of Python `str.isdigit`. -/
def isDigitPy (c : Char) : Bool := c.isDigit

/-- ASCII model of Python `str.isalnum`. -/
def isAlnumPy (c : Char) : Bool := isAlphaPy c || isDigitPy c

/-- KEYWORDS = {"int", "float", "double", "if", "else"} -/
def KEYWORDS : List String := ["int", "float", "double", "if", "else"]

/-- OPERATORS = {'+', '-', '*', '/', '%', '=', '<', '>', '!'} -/
def OPERATORS : List Char := ['+', '-', '*', '/', '%', '=', '<', '>', '!']

/-- DOUBLE_OPERATORS = {"==", "!=", "<=", ">="} -/
def DOUBLE_OPERATORS : List String := ["==", "!=", "<=", ">="]

/-- SIGNS = {';', '(', ')', '{', '}'} -/
def SIGNS : List Char := [';', '(', ')', '{', '}']

/-- Token kinds of the lexer ("KEYWORD", "IDENTIFIER", "INTEGER",
"OPERATOR", "SIGN", "UNKNOWN", "EOF" in the Python source). -/
inductive TokenType where
  | KEYWORD
  | IDENTIFIER
  | INTEGER
  | OPERATOR
  | SIGN
  | UNKNOWN
  | EOF
deriving DecidableEq

/-- A token: the Python code uses 4-tuples (type, text, line, column). -/
structure Token where
  kind : TokenType
  text : String
  line : Nat
  col : Nat
deriving DecidableEq

/-- Transition function of the scanner, translated from `next_state`. -/
def next_state (current : Int) (ch : Char) : Int :=
  if current = 0 then
    if isSpacePy ch then 0
    else if isAlphaPy ch || ch = '_' then 1
    else if isDigitPy ch then 3
    else if ch ∈ OPERATORS then 6
    else if ch ∈ SIGNS then 7
    else 8
  else if current = 1 then
    if isAlnumPy ch || ch = '_' then 1 else -1
  else if current = 3 then
    if isDigitPy ch then 3 else -1
  else -1

/-- The inner extension loop of `lexical_analyzer_from_text`: starting from
`state` with accumulated `buffer`, keep consuming characters while
`next_state` does not signal `-1`.  Returns the final state, the buffer,
the unconsumed rest, and the updated column. -/
def extend (state : Int) (buffer : List Char) (cs : List Char) (col : Nat) :
    Int × List Char × List Char × Nat :=
  match cs with
  | [] => (state, buffer, [], col)
  | next_ch :: rest =>
    let new_state := next_state state next_ch
    if new_state = -1 then (state, buffer, next_ch :: rest, col)
    else extend new_state (buffer ++ [next_ch]) rest (col + 1)

/-- The outer loop of `lexical_analyzer_from_text`.  The first argument is
fuel (the loop consumes at least one character per iteration, so any fuel
above the input length is enough; see `lexF_fuel_irrel`). -/
def lexLoopF : Nat → List Char → Nat → Nat → List Token
  | 0, _, _, _ => []
  | fuel + 1, cs, line, col =>
    match cs with
    | [] => [⟨.EOF, "", line, col⟩]
    | ch :: rest =>
      if ch = '\n' then
        lexLoopF fuel rest (line + 1) 1
      else
        let state := next_state 0 ch
        if state = 0 then
          lexLoopF fuel rest line (col + 1)
        else
          match extend state [ch] rest (col + 1) with
          | (state1, buffer, rest2, col2) =>
            if state1 = 1 then
              let tt := if String.mk buffer ∈ KEYWORDS then
                  TokenType.KEYWORD else TokenType.IDENTIFIER
              ⟨tt, String.mk buffer, line, col⟩ :: lexLoopF fuel rest2 line col2
            else if state1 = 3 then
              ⟨.INTEGER, String.mk buffer, line, col⟩ :: lexLoopF fuel rest2 line col2
            else if state1 = 6 then
              match rest2 with
              | c2 :: rest3 =>
                let possible := String.mk (buffer ++ [c2])
                if possible ∈ DOUBLE_OPERATORS then
                  ⟨.OPERATOR, possible, line, col⟩ :: lexLoopF fuel rest3 line (col2 + 1)
                else
                  ⟨.OPERATOR, String.mk buffer, line, col⟩ :: lexLoopF fuel rest2 line col2
              | [] =>
                ⟨.OPERATOR, String.mk buffer, line, col⟩ :: lexLoopF fuel rest2 line col2
            else if state1 = 7 then
              ⟨.SIGN, String.mk buffer, line, col⟩ :: lexLoopF fuel rest2 line col2
            else
              ⟨.UNKNOWN, String.mk buffer, line, col⟩ :: lexLoopF fuel rest2 line col2

/-- Run the scanner on a character list with canonical (sufficient) fuel. -/
def lexRun (cs : List Char) (line col : Nat) : List Token :=
  lexLoopF (cs.length + 1) cs line col

/-- `lexical_analyzer_from_text`: tokenize a source string, starting at
line 1, column 1. -/
def lexical_analyzer_from_text (code : String) : List Token :=
  lexRun code.data 1 1

/-- Expression nodes: ("BIN_OP", op, l, r), ("NUMBER", lit), ("IDENTIFIER", name). -/
inductive Expr where
  | Number (lit : String)
  | Identifier (name : String)
  | BinOp (op : String) (left right : Expr)
deriving DecidableEq

/-- Statement nodes: ("DECLARATION", ty, id, expr-or-None),
("ASSIGNMENT", id, expr), ("IF", cond, stmt). -/
inductive Stmt where
  | Declaration (typeName identifier : String) (init : Option Expr)
  | Assignment (identifier : String) (value : Expr)
  | If (condition : Expr) (body : Stmt)
deriving DecidableEq

/-- The ("PROGRAM", statements) root node. -/
structure Program where
  statements : List Stmt
deriving DecidableEq

/-- Parser failure: `unexpected tok` models `SyntaxError` carrying the
offending token (all three raise sites in the Python parser);
`outOfRange` models the `IndexError` that `peek` would raise past the end
of the token list; `outOfFuel` is an artifact of the fuel embedding. -/
inductive PErr where
  | unexpected (tok : Token)
  | outOfRange
  | outOfFuel
deriving DecidableEq

/-- `Parser.match`: inspect the current token, check its kind (and, when
given, its exact text), and consume it. -/
def pmatch (expected_type : TokenType) (expected_value : Option String)
    (ts : List Token) : Except PErr (Token × List Token) :=
  match ts with
  | [] => .error .outOfRange
  | tok :: rest =>
    if tok.kind ≠ expected_type then .error (.unexpected tok)
    else
      match expected_value with
      | some v => if tok.text ≠ v then .error (.unexpected tok) else .ok (tok, rest)
      | none => .ok (tok, rest)

mutual

/-- `Parser.parse_factor`. -/
def parse_factor : Nat → List Token → Except PErr (Expr × List Token)
  | 0, _ => .error .outOfFuel
  | fuel + 1, ts =>
    match ts with
    | [] => .error .outOfRange
    | tok :: rest =>
      if tok.kind = .INTEGER then .ok (.Number tok.text, rest)
      else if tok.kind = .IDENTIFIER then .ok (.Identifier tok.text, rest)
      else if tok.kind = .SIGN ∧ tok.text = "(" then
        match pmatch .SIGN (some "(") (tok :: rest) with
        | .error e => .error e
        | .ok (_, ts2) =>
          match parse_expression fuel ts2 with
          | .error e => .error e
          | .ok (expr, ts3) =>
            match pmatch .SIGN (some ")") ts3 with
            | .error e => .error e
            | .ok (_, ts4) => .ok (expr, ts4)
      else .error (.unexpected tok)

/-- The `while` loop inside `Parser.parse_term`. -/
def parse_term_loop : Nat → Expr → List Token → Except PErr (Expr × List Token)
  | 0, _, _ => .error .outOfFuel
  | fuel + 1, left, ts =>
    match ts with
    | [] => .error .outOfRange
    | tok :: rest =>
      if tok.kind = .OPERATOR ∧ tok.text ∈ (["*", "/"] : List String) then
        match pmatch .OPERATOR none (tok :: rest) with
        | .error e => .error e
        | .ok (op_tok, ts2) =>
          match parse_factor fuel ts2 with
          | .error e => .error e
          | .ok (right, ts3) => parse_term_loop fuel (.BinOp op_tok.text left right) ts3
      else .ok (left, tok :: rest)

/-- `Parser.parse_term`. -/
def parse_term : Nat → List Token → Except PErr (Expr × List Token)
  | 0, _ => .error .outOfFuel
  | fuel + 1, ts =>
    match parse_factor fuel ts with
    | .error e => .error e
    | .ok (left, ts1) => parse_term_loop fuel left ts1

/-- The `while` loop inside `Parser.parse_expression`. -/
def parse_expression_loop : Nat → Expr → List Token → Except PErr (Expr × List Token)
  | 0, _, _ => .error .outOfFuel
  | fuel + 1, left, ts =>
    match ts with
    | [] => .error .outOfRange
    | tok :: rest =>
      if tok.kind = .OPERATOR ∧ tok.text ∈ (["+", "-", "<", ">", "=="] : List String) then
        match pmatch .OPERATOR none (tok :: rest) with
        | .error e => .error e
        | .ok (op_tok, ts2) =>
          match parse_term fuel ts2 with
          | .error e => .error e
          | .ok (right, ts3) => parse_expression_loop fuel (.BinOp op_tok.text left right) ts3
      else .ok (left, tok :: rest)

/-- `Parser.parse_expression`. -/
def parse_expression : Nat → List Token → Except PErr (Expr × List Token)
  | 0, _ => .error .outOfFuel
  | fuel + 1, ts =>
    match parse_term fuel ts with
    | .error e => .error e
    | .ok (left, ts1) => parse_expression_loop fuel left ts1

end

mutual

/-- `Parser.parse_declaration`. -/
def parse_declaration : Nat → List Token → Except PErr (Stmt × List Token)
  | 0, _ => .error .outOfFuel
  | fuel + 1, ts =>
    match pmatch .KEYWORD none ts with
    | .error e => .error e
    | .ok (type_tok, ts1) =>
      match pmatch .IDENTIFIER none ts1 with
      | .error e => .error e
      | .ok (id_tok, ts2) =>
        match ts2 with
        | [] => .error .outOfRange
        | tok :: rest =>
          if tok.kind = .OPERATOR ∧ tok.text = "=" then
            match pmatch .OPERATOR (some "=") (tok :: rest) with
            | .error e => .error e
            | .ok (_, ts3) =>
              match parse_expression fuel ts3 with
              | .error e => .error e
              | .ok (expr, ts4) =>
                match pmatch .SIGN (some ";") ts4 with
                | .error e => .error e
                | .ok (_, ts5) =>
                  .ok (.Declaration type_tok.text id_tok.text (some expr), ts5)
          else
            match pmatch .SIGN (some ";") (tok :: rest) with
            | .error e => .error e
            | .ok (_, ts3) =>
              .ok (.Declaration type_tok.text id_tok.text none, ts3)

/-- `Parser.parse_assignment`. -/
def parse_assignment : Nat → List Token → Except PErr (Stmt × List Token)
  | 0, _ => .error .outOfFuel
  | fuel + 1, ts =>
    match pmatch .IDENTIFIER none ts with
    | .error e => .error e
    | .ok (id_tok, ts1) =>
      match pmatch .OPERATOR (some "=") ts1 with
      | .error e => .error e
      | .ok (_, ts2) =>
        match parse_expression fuel ts2 with
        | .error e => .error e
        | .ok (expr, ts3) =>
          match pmatch .SIGN (some ";") ts3 with
          | .error e => .error e
          | .ok (_, ts4) => .ok (.Assignment id_tok.text expr, ts4)

/-- `Parser.parse_if`. -/
def parse_if : Nat → List Token → Except PErr (Stmt × List Token)
  | 0, _ => .error .outOfFuel
  | fuel + 1, ts =>
    match pmatch .KEYWORD (some "if") ts with
    | .error e => .error e
    | .ok (_, ts1) =>
      match pmatch .SIGN (some "(") ts1 with
      | .error e => .error e
      | .ok (_, ts2) =>
        match parse_expression fuel ts2 with
        | .error e => .error e
        | .ok (condition, ts3) =>
          match pmatch .SIGN (some ")") ts3 with
          | .error e => .error e
          | .ok (_, ts4) =>
            match parse_statement fuel ts4 with
            | .error e => .error e
            | .ok (stmt, ts5) => .ok (.If condition stmt, ts5)

/-- `Parser.parse_statement`. -/
def parse_statement : Nat → List Token → Except PErr (Stmt × List Token)
  | 0, _ => .error .outOfFuel
  | fuel + 1, ts =>
    match ts with
    | [] => .error .outOfRange
    | tok :: rest =>
      if tok.kind = .KEYWORD ∧ tok.text ∈ (["int", "float", "double"] : List String) then
        parse_declaration fuel (tok :: rest)
      else if tok.kind = .KEYWORD ∧ tok.text = "if" then
        parse_if fuel (tok :: rest)
      else if tok.kind = .IDENTIFIER then
        parse_assignment fuel (tok :: rest)
      else .error (.unexpected tok)

/-- `Parser.parse_program`: loop over statements until the current token
is the end-of-input marker (which is peeked at but never consumed). -/
def parse_program : Nat → List Token → Except PErr (List Stmt × List Token)
  | 0, _ => .error .outOfFuel
  | fuel + 1, ts =>
    match ts with
    | [] => .error .outOfRange
    | tok :: rest =>
      if tok.kind = .EOF then .ok ([], tok :: rest)
      else
        match parse_statement fuel (tok :: rest) with
        | .error e => .error e
        | .ok (stmt, ts1) =>
          match parse_program fuel ts1 with
          | .error e => .error e
          | .ok (stmts, ts2) => .ok (stmt :: stmts, ts2)

end

/-- Top-level parse: build the ("PROGRAM", statements) node.  The fuel
value `5 * ts.length + 8` is proved sufficient by `parser_inv`. -/
def parse (ts : List Token) : Except PErr Program :=
  match parse_program (5 * ts.length + 8) ts with
  | .error e => .error e
  | .ok (stmts, _) => .ok ⟨stmts⟩

/-! ### Basic facts about the transition function -/

/-- Continuation predicate of state 1 (identifier extension). -/
def p1 (ch : Char) : Bool := isAlnumPy ch || ch = '_'

/-- Continuation predicate of state 3 (integer extension). -/
def p3 (ch : Char) : Bool := isDigitPy ch

theorem ns0_space {ch : Char} (h : isSpacePy ch = true) : next_state 0 ch = 0 := by
  simp [next_state, h]

theorem ns0_ne_zero_not_space {ch : Char} (h : next_state 0 ch ≠ 0) :
    isSpacePy ch = false := by
  by_contra hs
  exact h (ns0_space (by simpa using hs))

theorem ns0_ne_zero_ne_newline {ch : Char} (h : next_state 0 ch ≠ 0) : ch ≠ '\n' := by
  intro hch
  subst hch
  exact absurd (ns0_space (by decide)) h

theorem ns0_cases (ch : Char) :
    next_state 0 ch = 0 ∨ next_state 0 ch = 1 ∨ next_state 0 ch = 3 ∨
    next_state 0 ch = 6 ∨ next_state 0 ch = 7 ∨ next_state 0 ch = 8 := by
  unfold next_state
  split_ifs <;> simp_all

theorem ns0_zero_space {ch : Char} (h : next_state 0 ch = 0) : isSpacePy ch = true := by
  by_contra hs
  rw [Bool.not_eq_true] at hs
  simp only [next_state, if_pos rfl, hs, Bool.false_eq_true, if_false] at h
  split_ifs at h <;> simp_all

theorem space_cases {ch : Char} (h : isSpacePy ch = true) :
    ch = ' ' ∨ ch = '\t' ∨ ch = '\n' ∨ ch = '\r' ∨ ch = '\x0b' ∨ ch = '\x0c' := by
  simp only [isSpacePy, Bool.or_eq_true, decide_eq_true_eq] at h
  tauto

theorem ns1 (ch : Char) : next_state 1 ch = if p1 ch then 1 else -1 := by
  simp [next_state, p1]

theorem ns3 (ch : Char) : next_state 3 ch = if p3 ch then 3 else -1 := by
  simp [next_state, p3]

theorem ns_other {s : Int} (h0 : s ≠ 0) (h1 : s ≠ 1) (h3 : s ≠ 3) (ch : Char) :
    next_state s ch = -1 := by
  simp [next_state, h0, h1, h3]

theorem p1_not_space {ch : Char} (h : p1 ch = true) : isSpacePy ch = false := by
  by_contra hs
  rw [Bool.not_eq_false] at hs
  rcases space_cases hs with rfl | rfl | rfl | rfl | rfl | rfl <;> revert h <;> decide

theorem p3_not_space {ch : Char} (h : p3 ch = true) : isSpacePy ch = false := by
  by_contra hs
  rw [Bool.not_eq_false] at hs
  rcases space_cases hs with rfl | rfl | rfl | rfl | rfl | rfl <;> revert h <;> decide

theorem double_op_chars {a b : Char} (h : String.mk [a, b] ∈ DOUBLE_OPERATORS) :
    b = '=' ∧ (a = '=' ∨ a = '!' ∨ a = '<' ∨ a = '>') := by
  simp only [DOUBLE_OPERATORS, List.mem_cons, List.mem_singleton,
    List.not_mem_nil, or_false] at h
  rcases h with h | h | h | h <;>
    · have h2 : [a, b] = _ := congrArg String.data h
      simp at h2
      obtain ⟨rfl, rfl⟩ := h2
      simp

/-! ### The extension loop -/

theorem extend_stop {s : Int} (h0 : s ≠ 0) (h1 : s ≠ 1) (h3 : s ≠ 3)
    (b : List Char) (cs : List Char) (c : Nat) : extend s b cs c = (s, b, cs, c) := by
  cases cs with
  | nil => rfl
  | cons x xs => simp [extend, ns_other h0 h1 h3]

theorem extend_one (cs : List Char) : ∀ (b : List Char) (c : Nat),
    extend 1 b cs c =
      (1, b ++ cs.takeWhile p1, cs.dropWhile p1, c + (cs.takeWhile p1).length) := by
  induction cs with
  | nil => intro b c; simp [extend]
  | cons x xs ih =>
    intro b c
    by_cases hx : p1 x = true
    · simp only [extend, ns1, hx, if_true]
      rw [ih]
      simp [List.takeWhile_cons, List.dropWhile_cons, hx]
      omega
    · simp only [Bool.not_eq_true] at hx
      simp [extend, ns1, hx, List.takeWhile_cons, List.dropWhile_cons]

theorem extend_three (cs : List Char) : ∀ (b : List Char) (c : Nat),
    extend 3 b cs c =
      (3, b ++ cs.takeWhile p3, cs.dropWhile p3, c + (cs.takeWhile p3).length) := by
  induction cs with
  | nil => intro b c; simp [extend]
  | cons x xs ih =>
    intro b c
    by_cases hx : p3 x = true
    · simp only [extend, ns3, hx, if_true]
      rw [ih]
      simp [List.takeWhile_cons, List.dropWhile_cons, hx]
      omega
    · simp only [Bool.not_eq_true] at hx
      simp [extend, ns3, hx, List.takeWhile_cons, List.dropWhile_cons]

/-! ### One-step unfoldings of the scanner loop -/

theorem lexF_nil (fuel l c : Nat) :
    lexLoopF (fuel + 1) [] l c = [⟨.EOF, "", l, c⟩] := rfl

theorem lexF_newline (fuel : Nat) (rest : List Char) (l c : Nat) :
    lexLoopF (fuel + 1) ('\n' :: rest) l c = lexLoopF fuel rest (l + 1) 1 := by
  simp [lexLoopF]

theorem lexF_space {ch : Char} (h : isSpacePy ch = true) (hch : ch ≠ '\n')
    (fuel : Nat) (rest : List Char) (l c : Nat) :
    lexLoopF (fuel + 1) (ch :: rest) l c = lexLoopF fuel rest l (c + 1) := by
  simp [lexLoopF, hch, ns0_space h]

theorem lexF_ident {ch : Char} (h : next_state 0 ch = 1)
    (fuel : Nat) (rest : List Char) (l c : Nat) :
    lexLoopF (fuel + 1) (ch :: rest) l c =
      ⟨(if String.mk (ch :: rest.takeWhile p1) ∈ KEYWORDS then .KEYWORD else .IDENTIFIER),
        String.mk (ch :: rest.takeWhile p1), l, c⟩ ::
        lexLoopF fuel (rest.dropWhile p1) l (c + 1 + (rest.takeWhile p1).length) := by
  have hch : ch ≠ '\n' := ns0_ne_zero_ne_newline (by rw [h]; decide)
  simp only [lexLoopF, if_neg hch, h]
  rw [extend_one]
  norm_num

theorem lexF_int {ch : Char} (h : next_state 0 ch = 3)
    (fuel : Nat) (rest : List Char) (l c : Nat) :
    lexLoopF (fuel + 1) (ch :: rest) l c =
      ⟨.INTEGER, String.mk (ch :: rest.takeWhile p3), l, c⟩ ::
        lexLoopF fuel (rest.dropWhile p3) l (c + 1 + (rest.takeWhile p3).length) := by
  have hch : ch ≠ '\n' := ns0_ne_zero_ne_newline (by rw [h]; decide)
  simp only [lexLoopF, if_neg hch, h]
  rw [extend_three]
  norm_num

theorem lexF_op_nil {ch : Char} (h : next_state 0 ch = 6) (fuel : Nat) (l c : Nat) :
    lexLoopF (fuel + 1) [ch] l c =
      ⟨.OPERATOR, String.mk [ch], l, c⟩ :: lexLoopF fuel [] l (c + 1) := by
  have hch : ch ≠ '\n' := ns0_ne_zero_ne_newline (by rw [h]; decide)
  simp only [lexLoopF, if_neg hch, h]
  rw [extend_stop (by decide) (by decide) (by decide)]
  norm_num

theorem lexF_op_double {ch c2 : Char} (h : next_state 0 ch = 6)
    (hd : String.mk [ch, c2] ∈ DOUBLE_OPERATORS)
    (fuel : Nat) (rest : List Char) (l c : Nat) :
    lexLoopF (fuel + 1) (ch :: c2 :: rest) l c =
      ⟨.OPERATOR, String.mk [ch, c2], l, c⟩ :: lexLoopF fuel rest l (c + 2) := by
  have hch : ch ≠ '\n' := ns0_ne_zero_ne_newline (by rw [h]; decide)
  simp only [lexLoopF, if_neg hch, h]
  rw [extend_stop (by decide) (by decide) (by decide)]
  norm_num [hd]

theorem lexF_op_single {ch c2 : Char} (h : next_state 0 ch = 6)
    (hd : String.mk [ch, c2] ∉ DOUBLE_OPERATORS)
    (fuel : Nat) (rest : List Char) (l c : Nat) :
    lexLoopF (fuel + 1) (ch :: c2 :: rest) l c =
      ⟨.OPERATOR, String.mk [ch], l, c⟩ :: lexLoopF fuel (c2 :: rest) l (c + 1) := by
  have hch : ch ≠ '\n' := ns0_ne_zero_ne_newline (by rw [h]; decide)
  simp only [lexLoopF, if_neg hch, h]
  rw [extend_stop (by decide) (by decide) (by decide)]
  norm_num [hd]

theorem lexF_sign {ch : Char} (h : next_state 0 ch = 7)
    (fuel : Nat) (rest : List Char) (l c : Nat) :
    lexLoopF (fuel + 1) (ch :: rest) l c =
      ⟨.SIGN, String.mk [ch], l, c⟩ :: lexLoopF fuel rest l (c + 1) := by
  have hch : ch ≠ '\n' := ns0_ne_zero_ne_newline (by rw [h]; decide)
  simp only [lexLoopF, if_neg hch, h]
  rw [extend_stop (by decide) (by decide) (by decide)]
  norm_num

theorem lexF_unknown {ch : Char} (h : next_state 0 ch = 8)
    (fuel : Nat) (rest : List Char) (l c : Nat) :
    lexLoopF (fuel + 1) (ch :: rest) l c =
      ⟨.UNKNOWN, String.mk [ch], l, c⟩ :: lexLoopF fuel rest l (c + 1) := by
  have hch : ch ≠ '\n' := ns0_ne_zero_ne_newline (by rw [h]; decide)
  simp only [lexLoopF, if_neg hch, h]
  rw [extend_stop (by decide) (by decide) (by decide)]
  norm_num

/-! ### A reusable induction principle for the scanner loop -/

/-- Induction over the runs of the scanner: to establish a predicate `P`
about the token list produced from any input (with sufficient fuel), it is
enough to establish it across each kind of scanner step. -/
theorem lexRec (P : List Char → Nat → Nat → List Token → Prop)
    (hnil : ∀ l c, P [] l c [⟨.EOF, "", l, c⟩])
    (hnl : ∀ rest l c out, P rest (l + 1) 1 out → P ('\n' :: rest) l c out)
    (hsp : ∀ ch rest l c out, isSpacePy ch = true → ch ≠ '\n' →
      P rest l (c + 1) out → P (ch :: rest) l c out)
    (hid : ∀ ch rest l c out, next_state 0 ch = 1 →
      P (rest.dropWhile p1) l (c + 1 + (rest.takeWhile p1).length) out →
      P (ch :: rest) l c
        (⟨(if String.mk (ch :: rest.takeWhile p1) ∈ KEYWORDS then .KEYWORD else .IDENTIFIER),
          String.mk (ch :: rest.takeWhile p1), l, c⟩ :: out))
    (hint : ∀ ch rest l c out, next_state 0 ch = 3 →
      P (rest.dropWhile p3) l (c + 1 + (rest.takeWhile p3).length) out →
      P (ch :: rest) l c (⟨.INTEGER, String.mk (ch :: rest.takeWhile p3), l, c⟩ :: out))
    (hop0 : ∀ ch l c out, next_state 0 ch = 6 → P [] l (c + 1) out →
      P [ch] l c (⟨.OPERATOR, String.mk [ch], l, c⟩ :: out))
    (hop2 : ∀ ch c2 rest l c out, next_state 0 ch = 6 →
      String.mk [ch, c2] ∈ DOUBLE_OPERATORS → P rest l (c + 2) out →
      P (ch :: c2 :: rest) l c (⟨.OPERATOR, String.mk [ch, c2], l, c⟩ :: out))
    (hop1 : ∀ ch c2 rest l c out, next_state 0 ch = 6 →
      String.mk [ch, c2] ∉ DOUBLE_OPERATORS → P (c2 :: rest) l (c + 1) out →
      P (ch :: c2 :: rest) l c (⟨.OPERATOR, String.mk [ch], l, c⟩ :: out))
    (hsg : ∀ ch rest l c out, next_state 0 ch = 7 → P rest l (c + 1) out →
      P (ch :: rest) l c (⟨.SIGN, String.mk [ch], l, c⟩ :: out))
    (hun : ∀ ch rest l c out, next_state 0 ch = 8 → P rest l (c + 1) out →
      P (ch :: rest) l c (⟨.UNKNOWN, String.mk [ch], l, c⟩ :: out)) :
    ∀ fuel cs l c, cs.length < fuel → P cs l c (lexLoopF fuel cs l c) := by
  intro fuel
  induction fuel with
  | zero => intro cs l c hlen; omega
  | succ f ih =>
    intro cs l c hlen
    match cs with
    | [] => rw [lexF_nil]; exact hnil l c
    | ch :: rest =>
      simp only [List.length_cons] at hlen
      by_cases hch : ch = '\n'
      · subst hch
        rw [lexF_newline]
        exact hnl rest l c _ (ih rest (l + 1) 1 (by omega))
      by_cases hspace : isSpacePy ch = true
      · rw [lexF_space hspace hch]
        exact hsp ch rest l c _ hspace hch (ih rest l (c + 1) (by omega))
      rcases ns0_cases ch with h0 | h0 | h0 | h0 | h0 | h0
      · exact absurd (ns0_zero_space h0) hspace
      · rw [lexF_ident h0]
        refine hid ch rest l c _ h0 (ih _ l _ ?_)
        have := (List.dropWhile_sublist (l := rest) (p := p1)).length_le
        omega
      · rw [lexF_int h0]
        refine hint ch rest l c _ h0 (ih _ l _ ?_)
        have := (List.dropWhile_sublist (l := rest) (p := p3)).length_le
        omega
      · match rest with
        | [] =>
          rw [lexF_op_nil h0]
          exact hop0 ch l c _ h0 (ih [] l (c + 1) (by omega))
        | c2 :: rest3 =>
          simp only [List.length_cons] at hlen
          by_cases hdo : String.mk [ch, c2] ∈ DOUBLE_OPERATORS
          · rw [lexF_op_double h0 hdo]
            exact hop2 ch c2 rest3 l c _ h0 hdo (ih rest3 l (c + 2) (by omega))
          · rw [lexF_op_single h0 hdo]
            exact hop1 ch c2 rest3 l c _ h0 hdo
              (ih (c2 :: rest3) l (c + 1) (by simp only [List.length_cons]; omega))
      · rw [lexF_sign h0]
        exact hsg ch rest l c _ h0 (ih rest l (c + 1) (by omega))
      · rw [lexF_unknown h0]
        exact hun ch rest l c _ h0 (ih rest l (c + 1) (by omega))

/-! ### Fuel irrelevance -/

theorem lexF_fuel_irrel : ∀ (fuel fuel' : Nat) (cs : List Char) (l c : Nat),
    cs.length < fuel → cs.length < fuel' →
    lexLoopF fuel' cs l c = lexLoopF fuel cs l c := by
  intro fuel fuel' cs l c h h'
  refine lexRec (fun cs l c out => ∀ g, cs.length < g → lexLoopF g cs l c = out)
    ?_ ?_ ?_ ?_ ?_ ?_ ?_ ?_ ?_ ?_ fuel cs l c h fuel' h'
  · intro l c g hg
    obtain ⟨g', rfl⟩ : ∃ g', g = g' + 1 := ⟨g - 1, by omega⟩
    exact lexF_nil g' l c
  · intro rest l c out ih g hg
    obtain ⟨g', rfl⟩ : ∃ g', g = g' + 1 := ⟨g - 1, by omega⟩
    rw [lexF_newline]
    exact ih g' (by simp only [List.length_cons] at hg; omega)
  · intro ch rest l c out hs hch ih g hg
    obtain ⟨g', rfl⟩ : ∃ g', g = g' + 1 := ⟨g - 1, by omega⟩
    rw [lexF_space hs hch]
    exact ih g' (by simp only [List.length_cons] at hg; omega)
  · intro ch rest l c out h0 ih g hg
    obtain ⟨g', rfl⟩ : ∃ g', g = g' + 1 := ⟨g - 1, by omega⟩
    rw [lexF_ident h0]
    refine congrArg (List.cons _) (ih g' ?_)
    have := (List.dropWhile_sublist (l := rest) (p := p1)).length_le
    simp only [List.length_cons] at hg
    omega
  · intro ch rest l c out h0 ih g hg
    obtain ⟨g', rfl⟩ : ∃ g', g = g' + 1 := ⟨g - 1, by omega⟩
    rw [lexF_int h0]
    refine congrArg (List.cons _) (ih g' ?_)
    have := (List.dropWhile_sublist (l := rest) (p := p3)).length_le
    simp only [List.length_cons] at hg
    omega
  · intro ch l c out h0 ih g hg
    obtain ⟨g', rfl⟩ : ∃ g', g = g' + 1 := ⟨g - 1, by omega⟩
    rw [lexF_op_nil h0]
    exact congrArg (List.cons _) (ih g' (by simp only [List.length_cons] at hg; omega))
  · intro ch c2 rest l c out h0 hd ih g hg
    obtain ⟨g', rfl⟩ : ∃ g', g = g' + 1 := ⟨g - 1, by omega⟩
    rw [lexF_op_double h0 hd]
    exact congrArg (List.cons _) (ih g' (by simp only [List.length_cons] at hg; omega))
  · intro ch c2 rest l c out h0 hd ih g hg
    obtain ⟨g', rfl⟩ : ∃ g', g = g' + 1 := ⟨g - 1, by omega⟩
    rw [lexF_op_single h0 hd]
    exact congrArg (List.cons _) (ih g' (by simp only [List.length_cons] at hg ⊢; omega))
  · intro ch rest l c out h0 ih g hg
    obtain ⟨g', rfl⟩ : ∃ g', g = g' + 1 := ⟨g - 1, by omega⟩
    rw [lexF_sign h0]
    exact congrArg (List.cons _) (ih g' (by simp only [List.length_cons] at hg; omega))
  · intro ch rest l c out h0 ih g hg
    obtain ⟨g', rfl⟩ : ∃ g', g = g' + 1 := ⟨g - 1, by omega⟩
    rw [lexF_unknown h0]
    exact congrArg (List.cons _) (ih g' (by simp only [List.length_cons] at hg; omega))

theorem lexRun_eq_lexF {fuel : Nat} {cs : List Char} (l c : Nat) (h : cs.length < fuel) :
    lexLoopF fuel cs l c = lexRun cs l c :=
  lexF_fuel_irrel (cs.length + 1) fuel cs l c (by omega) h

/-! ### One-step unfoldings at canonical fuel -/

theorem lexRun_nil (l c : Nat) : lexRun [] l c = [⟨.EOF, "", l, c⟩] := rfl

theorem lexRun_newline (rest : List Char) (l c : Nat) :
    lexRun ('\n' :: rest) l c = lexRun rest (l + 1) 1 := by
  unfold lexRun
  rw [List.length_cons, lexF_newline]

theorem lexRun_space {ch : Char} (h : isSpacePy ch = true) (hch : ch ≠ '\n')
    (rest : List Char) (l c : Nat) :
    lexRun (ch :: rest) l c = lexRun rest l (c + 1) := by
  unfold lexRun
  rw [List.length_cons, lexF_space h hch]

theorem lexRun_ident {ch : Char} (h : next_state 0 ch = 1) (rest : List Char) (l c : Nat) :
    lexRun (ch :: rest) l c =
      ⟨(if String.mk (ch :: rest.takeWhile p1) ∈ KEYWORDS then .KEYWORD else .IDENTIFIER),
        String.mk (ch :: rest.takeWhile p1), l, c⟩ ::
        lexRun (rest.dropWhile p1) l (c + 1 + (rest.takeWhile p1).length) := by
  unfold lexRun
  rw [List.length_cons, lexF_ident h]
  refine congrArg (List.cons _) (lexRun_eq_lexF _ _ ?_)
  have := (List.dropWhile_sublist (l := rest) (p := p1)).length_le
  omega

theorem lexRun_int {ch : Char} (h : next_state 0 ch = 3) (rest : List Char) (l c : Nat) :
    lexRun (ch :: rest) l c =
      ⟨.INTEGER, String.mk (ch :: rest.takeWhile p3), l, c⟩ ::
        lexRun (rest.dropWhile p3) l (c + 1 + (rest.takeWhile p3).length) := by
  unfold lexRun
  rw [List.length_cons, lexF_int h]
  refine congrArg (List.cons _) (lexRun_eq_lexF _ _ ?_)
  have := (List.dropWhile_sublist (l := rest) (p := p3)).length_le
  omega

theorem lexRun_op_nil {ch : Char} (h : next_state 0 ch = 6) (l c : Nat) :
    lexRun [ch] l c = [⟨.OPERATOR, String.mk [ch], l, c⟩, ⟨.EOF, "", l, c + 1⟩] := by
  unfold lexRun
  rw [List.length_cons, lexF_op_nil h]
  rfl

theorem lexRun_op_double {ch c2 : Char} (h : next_state 0 ch = 6)
    (hd : String.mk [ch, c2] ∈ DOUBLE_OPERATORS) (rest : List Char) (l c : Nat) :
    lexRun (ch :: c2 :: rest) l c =
      ⟨.OPERATOR, String.mk [ch, c2], l, c⟩ :: lexRun rest l (c + 2) := by
  unfold lexRun
  rw [List.length_cons, lexF_op_double h hd]
  exact congrArg (List.cons _) (lexRun_eq_lexF _ _ (by simp only [List.length_cons]; omega))

theorem lexRun_op_single {ch c2 : Char} (h : next_state 0 ch = 6)
    (hd : String.mk [ch, c2] ∉ DOUBLE_OPERATORS) (rest : List Char) (l c : Nat) :
    lexRun (ch :: c2 :: rest) l c =
      ⟨.OPERATOR, String.mk [ch], l, c⟩ :: lexRun (c2 :: rest) l (c + 1) := by
  unfold lexRun
  rw [List.length_cons, lexF_op_single h hd]

theorem lexRun_sign {ch : Char} (h : next_state 0 ch = 7) (rest : List Char) (l c : Nat) :
    lexRun (ch :: rest) l c = ⟨.SIGN, String.mk [ch], l, c⟩ :: lexRun rest l (c + 1) := by
  unfold lexRun
  rw [List.length_cons, lexF_sign h]

theorem lexRun_unknown {ch : Char} (h : next_state 0 ch = 8) (rest : List Char) (l c : Nat) :
    lexRun (ch :: rest) l c = ⟨.UNKNOWN, String.mk [ch], l, c⟩ :: lexRun rest l (c + 1) := by
  unfold lexRun
  rw [List.length_cons, lexF_unknown h]

/-! ### Output structure: a unique end-of-input marker, in final position -/

theorem lexRun_structure (cs : List Char) (l c : Nat) :
    ∃ pre l2 c2, lexRun cs l c = pre ++ [⟨.EOF, "", l2, c2⟩] ∧
      ∀ t ∈ pre, t.kind ≠ .EOF := by
  have step : ∀ (tok : Token), tok.kind ≠ .EOF → ∀ out : List Token,
      (∃ pre l2 c2, out = pre ++ [⟨.EOF, "", l2, c2⟩] ∧ ∀ t ∈ pre, t.kind ≠ .EOF) →
      ∃ pre l2 c2, tok :: out = pre ++ [⟨.EOF, "", l2, c2⟩] ∧ ∀ t ∈ pre, t.kind ≠ .EOF := by
    rintro tok hk out ⟨pre, l2, c2, rfl, hpre⟩
    refine ⟨tok :: pre, l2, c2, rfl, ?_⟩
    intro t ht
    rcases List.mem_cons.mp ht with rfl | ht
    · exact hk
    · exact hpre t ht
  refine lexRec (fun _ _ _ out =>
      ∃ pre l2 c2, out = pre ++ [⟨.EOF, "", l2, c2⟩] ∧ ∀ t ∈ pre, t.kind ≠ .EOF)
    ?_ ?_ ?_ ?_ ?_ ?_ ?_ ?_ ?_ ?_ (cs.length + 1) cs l c (by omega)
  · intro l c; exact ⟨[], l, c, rfl, by simp⟩
  · intro _ _ _ _ ih; exact ih
  · intro _ _ _ _ _ _ _ ih; exact ih
  · intro ch rest l c out h0 ih
    refine step _ ?_ _ ih
    show (if String.mk (ch :: rest.takeWhile p1) ∈ KEYWORDS then
        TokenType.KEYWORD else TokenType.IDENTIFIER) ≠ TokenType.EOF
    split <;> decide
  · intro ch rest l c out h0 ih
    exact step _ (show TokenType.INTEGER ≠ TokenType.EOF by decide) _ ih
  · intro ch l c out h0 ih
    exact step _ (show TokenType.OPERATOR ≠ TokenType.EOF by decide) _ ih
  · intro ch c2 rest l c out h0 hd ih
    exact step _ (show TokenType.OPERATOR ≠ TokenType.EOF by decide) _ ih
  · intro ch c2 rest l c out h0 hd ih
    exact step _ (show TokenType.OPERATOR ≠ TokenType.EOF by decide) _ ih
  · intro ch rest l c out h0 ih
    exact step _ (show TokenType.SIGN ≠ TokenType.EOF by decide) _ ih
  · intro ch rest l c out h0 ih
    exact step _ (show TokenType.UNKNOWN ≠ TokenType.EOF by decide) _ ih

/-! ### Shape of each emitted token's text -/

/-- Shape of an identifier-like lexeme: a head character entering state 1
followed by characters that keep state 1 alive. -/
def identShape (s : String) : Prop :=
  ∃ c cs, s.data = c :: cs ∧ next_state 0 c = 1 ∧ ∀ d ∈ cs, p1 d = true

/-- What the scanner guarantees about the text of each token kind. -/
def wfText : TokenType → String → Prop
  | .KEYWORD, s => identShape s ∧ s ∈ KEYWORDS
  | .IDENTIFIER, s => identShape s ∧ s ∉ KEYWORDS
  | .INTEGER, s => ∃ c cs, s.data = c :: cs ∧ next_state 0 c = 3 ∧ ∀ d ∈ cs, p3 d = true
  | .OPERATOR, s => (∃ c, s.data = [c] ∧ next_state 0 c = 6) ∨
      (∃ c d, s.data = [c, d] ∧ next_state 0 c = 6 ∧ s ∈ DOUBLE_OPERATORS)
  | .SIGN, s => ∃ c, s.data = [c] ∧ next_state 0 c = 7
  | .UNKNOWN, s => ∃ c, s.data = [c] ∧ next_state 0 c = 8
  | .EOF, s => s = ""

theorem lexRun_wf (cs : List Char) (l c : Nat) :
    ∀ t ∈ lexRun cs l c, wfText t.kind t.text := by
  refine lexRec (fun _ _ _ out => ∀ t ∈ out, wfText t.kind t.text)
    ?_ ?_ ?_ ?_ ?_ ?_ ?_ ?_ ?_ ?_ (cs.length + 1) cs l c (by omega)
  · intro l c t ht
    rw [List.mem_singleton] at ht
    subst ht
    exact rfl
  · intro _ _ _ _ ih; exact ih
  · intro _ _ _ _ _ _ _ ih; exact ih
  · intro ch rest l c out h0 ih t ht
    rcases List.mem_cons.mp ht with rfl | ht
    · by_cases hA : String.mk (ch :: rest.takeWhile p1) ∈ KEYWORDS
      · simp only [if_pos hA]
        exact ⟨⟨ch, rest.takeWhile p1, rfl, h0, fun d hd => List.mem_takeWhile_imp hd⟩, hA⟩
      · simp only [if_neg hA]
        exact ⟨⟨ch, rest.takeWhile p1, rfl, h0, fun d hd => List.mem_takeWhile_imp hd⟩, hA⟩
    · exact ih t ht
  · intro ch rest l c out h0 ih t ht
    rcases List.mem_cons.mp ht with rfl | ht
    · exact ⟨ch, rest.takeWhile p3, rfl, h0, fun d hd => List.mem_takeWhile_imp hd⟩
    · exact ih t ht
  · intro ch l c out h0 ih t ht
    rcases List.mem_cons.mp ht with rfl | ht
    · exact Or.inl ⟨ch, rfl, h0⟩
    · exact ih t ht
  · intro ch c2 rest l c out h0 hd ih t ht
    rcases List.mem_cons.mp ht with rfl | ht
    · exact Or.inr ⟨ch, c2, rfl, h0, hd⟩
    · exact ih t ht
  · intro ch c2 rest l c out h0 hd ih t ht
    rcases List.mem_cons.mp ht with rfl | ht
    · exact Or.inl ⟨ch, rfl, h0⟩
    · exact ih t ht
  · intro ch rest l c out h0 ih t ht
    rcases List.mem_cons.mp ht with rfl | ht
    · exact ⟨ch, rfl, h0⟩
    · exact ih t ht
  · intro ch rest l c out h0 ih t ht
    rcases List.mem_cons.mp ht with rfl | ht
    · exact ⟨ch, rfl, h0⟩
    · exact ih t ht

/-! ### Concatenation of token texts = input minus whitespace -/

/-- Concatenation of the texts of a token list. -/
def textConcat (ts : List Token) : List Char :=
  ts.foldr (fun t a => t.text.data ++ a) []

theorem lexRun_concat (cs : List Char) (l c : Nat) :
    textConcat (lexRun cs l c) = cs.filter (fun ch => !isSpacePy ch) := by
  refine lexRec (fun cs _ _ out => textConcat out = cs.filter (fun ch => !isSpacePy ch))
    ?_ ?_ ?_ ?_ ?_ ?_ ?_ ?_ ?_ ?_ (cs.length + 1) cs l c (by omega)
  · intro l c; rfl
  · intro rest l c out ih
    rw [List.filter_cons]
    norm_num [show isSpacePy '\n' = true from by decide]
    exact ih
  · intro ch rest l c out hs hch ih
    rw [List.filter_cons]
    norm_num [hs]
    exact ih
  · intro ch rest l c out h0 ih
    have hns : isSpacePy ch = false := ns0_ne_zero_not_space (by rw [h0]; decide)
    have htake : (rest.takeWhile p1).filter (fun ch => !isSpacePy ch) = rest.takeWhile p1 :=
      List.filter_eq_self.mpr (fun a ha => by
        rw [p1_not_space (List.mem_takeWhile_imp ha)]; rfl)
    have hsplit : rest.filter (fun ch => !isSpacePy ch) =
        rest.takeWhile p1 ++ (rest.dropWhile p1).filter (fun ch => !isSpacePy ch) := by
      conv_lhs => rw [← List.takeWhile_append_dropWhile p1 rest]
      rw [List.filter_append, htake]
    show (ch :: rest.takeWhile p1) ++ textConcat out = _
    rw [ih, List.filter_cons]
    norm_num [hns, hsplit]
  · intro ch rest l c out h0 ih
    have hns : isSpacePy ch = false := ns0_ne_zero_not_space (by rw [h0]; decide)
    have htake : (rest.takeWhile p3).filter (fun ch => !isSpacePy ch) = rest.takeWhile p3 :=
      List.filter_eq_self.mpr (fun a ha => by
        rw [p3_not_space (List.mem_takeWhile_imp ha)]; rfl)
    have hsplit : rest.filter (fun ch => !isSpacePy ch) =
        rest.takeWhile p3 ++ (rest.dropWhile p3).filter (fun ch => !isSpacePy ch) := by
      conv_lhs => rw [← List.takeWhile_append_dropWhile p3 rest]
      rw [List.filter_append, htake]
    show (ch :: rest.takeWhile p3) ++ textConcat out = _
    rw [ih, List.filter_cons]
    norm_num [hns, hsplit]
  · intro ch l c out h0 ih
    have hns : isSpacePy ch = false := ns0_ne_zero_not_space (by rw [h0]; decide)
    show [ch] ++ textConcat out = _
    rw [ih, List.filter_cons]
    norm_num [hns]
  · intro ch c2 rest l c out h0 hd ih
    have hns : isSpacePy ch = false := ns0_ne_zero_not_space (by rw [h0]; decide)
    obtain ⟨rfl, _⟩ := double_op_chars hd
    show [ch, '='] ++ textConcat out = _
    rw [ih, List.filter_cons, List.filter_cons]
    norm_num [hns, show isSpacePy '=' = false from by decide]
  · intro ch c2 rest l c out h0 hd ih
    have hns : isSpacePy ch = false := ns0_ne_zero_not_space (by rw [h0]; decide)
    show [ch] ++ textConcat out = _
    rw [ih]
    conv_rhs => rw [List.filter_cons]
    norm_num [hns]
  · intro ch rest l c out h0 ih
    have hns : isSpacePy ch = false := ns0_ne_zero_not_space (by rw [h0]; decide)
    show [ch] ++ textConcat out = _
    rw [ih]
    conv_rhs => rw [List.filter_cons]
    norm_num [hns]
  · intro ch rest l c out h0 ih
    have hns : isSpacePy ch = false := ns0_ne_zero_not_space (by rw [h0]; decide)
    show [ch] ++ textConcat out = _
    rw [ih]
    conv_rhs => rw [List.filter_cons]
    norm_num [hns]

/-! ### Positions: monotone, 1-based, lines constant without newlines -/

/-- Position order on tokens: earlier line, or same line and
less-or-equal column. -/
def posLE (a b : Token) : Bool :=
  decide (a.line < b.line ∨ (a.line = b.line ∧ a.col ≤ b.col))

/-- Adjacent position monotonicity along a token list. -/
def posMono : List Token → Bool
  | [] => true
  | [_] => true
  | a :: b :: r => posLE a b && posMono (b :: r)

theorem posMono_cons {x : Token} {out : List Token}
    (h1 : ∀ y ∈ out, posLE x y = true) (h2 : posMono out = true) :
    posMono (x :: out) = true := by
  cases out with
  | nil => rfl
  | cons y ys =>
    simp only [posMono, Bool.and_eq_true]
    exact ⟨h1 y (List.mem_cons_self y ys), h2⟩

/-- One emission step preserves the position invariants. -/
theorem pos_step {k : TokenType} {s : String} {l c c' : Nat} {cs' cs : List Char}
    {out : List Token} (hcc : c ≤ c') (hsub : ∀ x, x ∈ cs' → x ∈ cs)
    (ih : (∀ t ∈ out, (l < t.line ∨ (l = t.line ∧ c' ≤ t.col)) ∧
        (1 ≤ c' → 1 ≤ t.col) ∧ ('\n' ∉ cs' → t.line = l)) ∧ posMono out = true) :
    (∀ t ∈ (⟨k, s, l, c⟩ : Token) :: out,
        (l < t.line ∨ (l = t.line ∧ c ≤ t.col)) ∧
        (1 ≤ c → 1 ≤ t.col) ∧ ('\n' ∉ cs → t.line = l)) ∧
      posMono ((⟨k, s, l, c⟩ : Token) :: out) = true := by
  obtain ⟨ihAll, ihMono⟩ := ih
  constructor
  · intro t ht
    rcases List.mem_cons.mp ht with rfl | ht
    · exact ⟨Or.inr ⟨rfl, le_refl c⟩, fun h => h, fun _ => rfl⟩
    · refine ⟨?_, ?_, ?_⟩
      · rcases (ihAll t ht).1 with h | ⟨h, h2⟩
        · exact Or.inl h
        · exact Or.inr ⟨h, by omega⟩
      · intro h1
        exact (ihAll t ht).2.1 (by omega)
      · intro hn
        exact (ihAll t ht).2.2 (fun hm => hn (hsub _ hm))
  · refine posMono_cons ?_ ihMono
    intro y hy
    simp only [posLE, decide_eq_true_eq]
    rcases (ihAll y hy).1 with h | ⟨h, h2⟩
    · exact Or.inl h
    · exact Or.inr ⟨h, by omega⟩

theorem lexRun_pos (cs : List Char) (l c : Nat) :
    (∀ t ∈ lexRun cs l c,
        (l < t.line ∨ (l = t.line ∧ c ≤ t.col)) ∧
        (1 ≤ c → 1 ≤ t.col) ∧ ('\n' ∉ cs → t.line = l)) ∧
      posMono (lexRun cs l c) = true := by
  refine lexRec (fun cs l c out =>
      (∀ t ∈ out, (l < t.line ∨ (l = t.line ∧ c ≤ t.col)) ∧
        (1 ≤ c → 1 ≤ t.col) ∧ ('\n' ∉ cs → t.line = l)) ∧ posMono out = true)
    ?_ ?_ ?_ ?_ ?_ ?_ ?_ ?_ ?_ ?_ (cs.length + 1) cs l c (by omega)
  · intro l c
    refine ⟨?_, rfl⟩
    intro t ht
    rw [List.mem_singleton] at ht
    subst ht
    exact ⟨Or.inr ⟨rfl, le_refl c⟩, fun h => h, fun _ => rfl⟩
  · intro rest l c out ih
    obtain ⟨ihAll, ihMono⟩ := ih
    refine ⟨?_, ihMono⟩
    intro t ht
    refine ⟨?_, ?_, ?_⟩
    · rcases (ihAll t ht).1 with h | ⟨h, _⟩ <;> exact Or.inl (by omega)
    · intro _
      exact (ihAll t ht).2.1 (by omega)
    · intro hn
      exact absurd (List.mem_cons_self _ _) hn
  · intro ch rest l c out hs hch ih
    obtain ⟨ihAll, ihMono⟩ := ih
    refine ⟨?_, ihMono⟩
    intro t ht
    refine ⟨?_, ?_, ?_⟩
    · rcases (ihAll t ht).1 with h | ⟨h, h2⟩
      · exact Or.inl h
      · exact Or.inr ⟨h, by omega⟩
    · intro _
      exact (ihAll t ht).2.1 (by omega)
    · intro hn
      exact (ihAll t ht).2.2 (fun hm => hn (List.mem_cons_of_mem _ hm))
  · intro ch rest l c out h0 ih
    exact pos_step (by omega)
      (fun x hx => List.mem_cons_of_mem _ ((List.dropWhile_sublist p1).subset hx)) ih
  · intro ch rest l c out h0 ih
    exact pos_step (by omega)
      (fun x hx => List.mem_cons_of_mem _ ((List.dropWhile_sublist p3).subset hx)) ih
  · intro ch l c out h0 ih
    exact pos_step (by omega) (fun x hx => absurd hx (List.not_mem_nil x)) ih
  · intro ch c2 rest l c out h0 hd ih
    exact pos_step (by omega)
      (fun x hx => List.mem_cons_of_mem _ (List.mem_cons_of_mem _ hx)) ih
  · intro ch c2 rest l c out h0 hd ih
    exact pos_step (by omega) (fun x hx => List.mem_cons_of_mem _ hx) ih
  · intro ch rest l c out h0 ih
    exact pos_step (by omega) (fun x hx => List.mem_cons_of_mem _ hx) ih
  · intro ch rest l c out h0 ih
    exact pos_step (by omega) (fun x hx => List.mem_cons_of_mem _ hx) ih

/-! ### Whitespace-only inputs -/

theorem lexRun_allspace (cs : List Char) (l c : Nat)
    (hall : ∀ ch ∈ cs, isSpacePy ch = true) :
    (lexRun cs l c).map Token.kind = [.EOF] := by
  refine lexRec (fun cs l c out =>
      (∀ ch ∈ cs, isSpacePy ch = true) → out.map Token.kind = [.EOF])
    ?_ ?_ ?_ ?_ ?_ ?_ ?_ ?_ ?_ ?_ (cs.length + 1) cs l c (by omega) hall
  · intro l c _; rfl
  · intro rest l c out ih hall2
    exact ih (fun x hx => hall2 x (List.mem_cons_of_mem _ hx))
  · intro ch rest l c out hs hch ih hall2
    exact ih (fun x hx => hall2 x (List.mem_cons_of_mem _ hx))
  · intro ch rest l c out h0 ih hall2
    have hns : isSpacePy ch = false := ns0_ne_zero_not_space (by rw [h0]; decide)
    rw [hall2 ch (List.mem_cons_self _ _)] at hns
    exact absurd hns (by decide)
  · intro ch rest l c out h0 ih hall2
    have hns : isSpacePy ch = false := ns0_ne_zero_not_space (by rw [h0]; decide)
    rw [hall2 ch (List.mem_cons_self _ _)] at hns
    exact absurd hns (by decide)
  · intro ch l c out h0 ih hall2
    have hns : isSpacePy ch = false := ns0_ne_zero_not_space (by rw [h0]; decide)
    rw [hall2 ch (List.mem_cons_self _ _)] at hns
    exact absurd hns (by decide)
  · intro ch c2 rest l c out h0 hd ih hall2
    have hns : isSpacePy ch = false := ns0_ne_zero_not_space (by rw [h0]; decide)
    rw [hall2 ch (List.mem_cons_self _ _)] at hns
    exact absurd hns (by decide)
  · intro ch c2 rest l c out h0 hd ih hall2
    have hns : isSpacePy ch = false := ns0_ne_zero_not_space (by rw [h0]; decide)
    rw [hall2 ch (List.mem_cons_self _ _)] at hns
    exact absurd hns (by decide)
  · intro ch rest l c out h0 ih hall2
    have hns : isSpacePy ch = false := ns0_ne_zero_not_space (by rw [h0]; decide)
    rw [hall2 ch (List.mem_cons_self _ _)] at hns
    exact absurd hns (by decide)
  · intro ch rest l c out h0 ih hall2
    have hns : isSpacePy ch = false := ns0_ne_zero_not_space (by rw [h0]; decide)
    rw [hall2 ch (List.mem_cons_self _ _)] at hns
    exact absurd hns (by decide)

/-! ### Re-lexing a single well-formed token text -/

theorem takeWhile_all_append {p : Char → Bool} {xs : List Char}
    (hx : ∀ x ∈ xs, p x = true) {y : Char} (hy : p y = false) (ys : List Char) :
    (xs ++ y :: ys).takeWhile p = xs ∧ (xs ++ y :: ys).dropWhile p = y :: ys := by
  induction xs with
  | nil => simp [List.takeWhile_cons, List.dropWhile_cons, hy]
  | cons x xs ih =>
    have hpx : p x = true := hx x (List.mem_cons_self _ _)
    have := ih (fun a ha => hx a (List.mem_cons_of_mem _ ha))
    simp [List.takeWhile_cons, List.dropWhile_cons, hpx, this.1, this.2]

theorem mk_data_eq {s : String} {l : List Char} (h : s.data = l) : String.mk l = s := by
  cases s with
  | mk d => rw [show d = l from h]

/-- Scanning the text of a well-formed non-EOF token followed by a space
yields exactly that token (same kind, text, position) and resumes after
the space. -/
theorem relex_token {k : TokenType} {s : String} (hk : k ≠ .EOF) (hwf : wfText k s)
    (rest : List Char) (l c : Nat) :
    lexRun (s.data ++ ' ' :: rest) l c =
      ⟨k, s, l, c⟩ :: lexRun rest l (c + s.data.length + 1) := by
  cases k with
  | EOF => exact absurd rfl hk
  | KEYWORD =>
    obtain ⟨⟨c0, cs0, hdata, h0, hall⟩, hmem⟩ := hwf
    obtain ⟨htake, hdrop⟩ := takeWhile_all_append hall (show p1 ' ' = false by decide) rest
    rw [hdata, List.cons_append, lexRun_ident h0, htake, hdrop,
      lexRun_space (show isSpacePy ' ' = true by decide) (by decide)]
    rw [mk_data_eq hdata, if_pos hmem]
    have harith : c + 1 + cs0.length + 1 = c + (c0 :: cs0).length + 1 := by
      simp only [List.length_cons]
      omega
    rw [harith]
  | IDENTIFIER =>
    obtain ⟨⟨c0, cs0, hdata, h0, hall⟩, hmem⟩ := hwf
    obtain ⟨htake, hdrop⟩ := takeWhile_all_append hall (show p1 ' ' = false by decide) rest
    rw [hdata, List.cons_append, lexRun_ident h0, htake, hdrop,
      lexRun_space (show isSpacePy ' ' = true by decide) (by decide)]
    rw [mk_data_eq hdata, if_neg hmem]
    have harith : c + 1 + cs0.length + 1 = c + (c0 :: cs0).length + 1 := by
      simp only [List.length_cons]
      omega
    rw [harith]
  | INTEGER =>
    obtain ⟨c0, cs0, hdata, h0, hall⟩ := hwf
    obtain ⟨htake, hdrop⟩ := takeWhile_all_append hall (show p3 ' ' = false by decide) rest
    rw [hdata, List.cons_append, lexRun_int h0, htake, hdrop,
      lexRun_space (show isSpacePy ' ' = true by decide) (by decide)]
    rw [mk_data_eq hdata]
    have harith : c + 1 + cs0.length + 1 = c + (c0 :: cs0).length + 1 := by
      simp only [List.length_cons]
      omega
    rw [harith]
  | OPERATOR =>
    rcases hwf with ⟨c0, hdata, h0⟩ | ⟨c0, d0, hdata, h0, hmem⟩
    · have hnd : String.mk [c0, ' '] ∉ DOUBLE_OPERATORS := by
        intro hm
        exact absurd (double_op_chars hm).1 (by decide)
      rw [hdata, List.cons_append, List.nil_append, lexRun_op_single h0 hnd,
        lexRun_space (show isSpacePy ' ' = true by decide) (by decide)]
      rw [mk_data_eq hdata]
      have harith : c + 1 + 1 = c + [c0].length + 1 := by simp
      rw [harith]
    · have hmem2 : String.mk [c0, d0] ∈ DOUBLE_OPERATORS := by
        rw [mk_data_eq hdata]; exact hmem
      rw [hdata]
      show lexRun (c0 :: d0 :: ' ' :: rest) l c = _
      rw [lexRun_op_double h0 hmem2,
        lexRun_space (show isSpacePy ' ' = true by decide) (by decide)]
      rw [mk_data_eq hdata]
      have harith : c + 2 + 1 = c + [c0, d0].length + 1 := by simp
      rw [harith]
  | SIGN =>
    obtain ⟨c0, hdata, h0⟩ := hwf
    rw [hdata, List.cons_append, List.nil_append, lexRun_sign h0,
      lexRun_space (show isSpacePy ' ' = true by decide) (by decide)]
    rw [mk_data_eq hdata]
    have harith : c + 1 + 1 = c + [c0].length + 1 := by simp
    rw [harith]
  | UNKNOWN =>
    obtain ⟨c0, hdata, h0⟩ := hwf
    rw [hdata, List.cons_append, List.nil_append, lexRun_unknown h0,
      lexRun_space (show isSpacePy ' ' = true by decide) (by decide)]
    rw [mk_data_eq hdata]
    have harith : c + 1 + 1 = c + [c0].length + 1 := by simp
    rw [harith]

/-- Re-lexing the space-joined texts of a list of well-formed non-EOF
tokens reproduces the kind sequence, with a final EOF marker. -/
theorem relex_list (ts : List Token)
    (hwf : ∀ t ∈ ts, wfText t.kind t.text ∧ t.kind ≠ .EOF) :
    ∀ (acc : String), (∀ x ∈ acc.data, x = ' ') → ∀ l c,
      (lexRun (ts.foldr (fun t a => t.text ++ " " ++ a) acc).data l c).map Token.kind =
        ts.map Token.kind ++ [.EOF] := by
  induction ts with
  | nil =>
    intro acc hacc l c
    exact lexRun_allspace acc.data l c (fun ch hch => by rw [hacc ch hch]; decide)
  | cons t ts ih =>
    intro acc hacc l c
    have hdata : (t.text ++ " " ++ ts.foldr (fun t a => t.text ++ " " ++ a) acc).data =
        t.text.data ++ ' ' :: (ts.foldr (fun t a => t.text ++ " " ++ a) acc).data := by
      rw [String.data_append, String.data_append, List.append_assoc]
      rfl
    rw [List.foldr_cons, hdata,
      relex_token (hwf t (List.mem_cons_self _ _)).2 (hwf t (List.mem_cons_self _ _)).1,
      List.map_cons, ih (fun x hx => hwf x (List.mem_cons_of_mem _ hx)) acc hacc l _,
      List.map_cons]
    simp

/-! ### Parser invariants -/

/-- Operator texts that the scanner can produce but no grammar rule ever
consumes. -/
def forbiddenOps : List String := ["!=", "<=", ">=", "%"]

/-- A token the parser may legitimately consume: never the EOF marker and
never an operator outside the grammar. -/
def ConsumedOK (t : Token) : Prop :=
  t.kind ≠ .EOF ∧ ¬(t.kind = .OPERATOR ∧ t.text ∈ forbiddenOps)

/-- Some token of the list is the EOF marker. -/
def HasEOF (ts : List Token) : Prop := ∃ t ∈ ts, t.kind = .EOF

theorem hasEOF_nil : ¬HasEOF ([] : List Token) := by
  rintro ⟨t, ht, _⟩
  exact List.not_mem_nil t ht

theorem hasEOF_tail {t : Token} {rest : List Token} (h : HasEOF (t :: rest))
    (hne : t.kind ≠ .EOF) : HasEOF rest := by
  obtain ⟨x, hx, hk⟩ := h
  rcases List.mem_cons.mp hx with rfl | hx
  · exact absurd hk hne
  · exact ⟨x, hx, hk⟩

/-- `Consumes ts rest strict`: the parser step went from suffix `ts` to
suffix `rest` consuming only legitimate tokens (at least one when
`strict`), and an EOF marker is still ahead. -/
def Consumes (ts rest : List Token) (strict : Bool) : Prop :=
  ∃ pre, ts = pre ++ rest ∧ (∀ t ∈ pre, ConsumedOK t) ∧ HasEOF rest ∧
    (strict = true → pre ≠ [])

theorem Consumes.eof {ts rest : List Token} {b : Bool} (h : Consumes ts rest b) :
    HasEOF rest := h.choose_spec.2.2.1

theorem Consumes.forget {ts rest : List Token} {b : Bool} (h : Consumes ts rest b) :
    Consumes ts rest false := by
  obtain ⟨pre, h1, h2, h3, _⟩ := h
  exact ⟨pre, h1, h2, h3, by simp⟩

theorem Consumes.refl {ts : List Token} (h : HasEOF ts) : Consumes ts ts false :=
  ⟨[], rfl, by simp, h, by simp⟩

theorem Consumes.cons {t : Token} {ts rest : List Token} {b : Bool}
    (hok : ConsumedOK t) (h : Consumes ts rest b) : Consumes (t :: ts) rest true := by
  obtain ⟨pre, rfl, hpre, heof, _⟩ := h
  refine ⟨t :: pre, rfl, ?_, heof, by simp⟩
  intro x hx
  rcases List.mem_cons.mp hx with rfl | hx
  · exact hok
  · exact hpre x hx

theorem Consumes.trans {ts ts1 ts2 : List Token} {b1 b2 : Bool}
    (h1 : Consumes ts ts1 b1) (h2 : Consumes ts1 ts2 b2) :
    Consumes ts ts2 (b1 || b2) := by
  obtain ⟨pa, rfl, hpa, _, hs1⟩ := h1
  obtain ⟨pb, rfl, hpb, heof2, hs2⟩ := h2
  refine ⟨pa ++ pb, by rw [List.append_assoc], ?_, heof2, ?_⟩
  · intro t ht
    rcases List.mem_append.mp ht with h | h
    · exact hpa t h
    · exact hpb t h
  · intro hb
    cases b1 with
    | true =>
      have := hs1 rfl
      intro hcontra
      rcases List.append_eq_nil.mp hcontra with ⟨h, _⟩
      exact this h
    | false =>
      cases b2 with
      | true =>
        have := hs2 rfl
        intro hcontra
        rcases List.append_eq_nil.mp hcontra with ⟨_, h⟩
        exact this h
      | false => exact absurd hb (by simp)

theorem Consumes.length_le {ts rest : List Token} {b : Bool} (h : Consumes ts rest b) :
    rest.length ≤ ts.length := by
  obtain ⟨pre, rfl, _, _, _⟩ := h
  simp [List.length_append]

theorem Consumes.length_lt {ts rest : List Token} (h : Consumes ts rest true) :
    rest.length < ts.length := by
  obtain ⟨pre, rfl, _, _, hs⟩ := h
  have hne := hs rfl
  cases pre with
  | nil => exact absurd rfl hne
  | cons x xs => simp [List.length_append, List.length_cons]; omega

/-- The .ok half of the parser invariant. -/
def OkSpec {α : Type} (ts : List Token) (strict : Bool) :
    Except PErr (α × List Token) → Prop
  | .ok (_, rest) => Consumes ts rest strict
  | .error _ => True

/-- The .error half of the parser invariant: every failure is a
SyntaxError carrying a token (never an index error, never fuel
exhaustion). -/
def ErrSpec {α : Type} : Except PErr (α × List Token) → Prop
  | .ok _ => True
  | .error e => ∃ tok, e = PErr.unexpected tok

/-- Combined invariant of one parser procedure run. -/
def Inv {α : Type} (ts : List Token) (strict : Bool)
    (r : Except PErr (α × List Token)) : Prop :=
  OkSpec ts strict r ∧ ErrSpec r

/-- On success, `parse_program` stops with the cursor on an EOF token. -/
def EofHeadSpec : Except PErr (List Stmt × List Token) → Prop
  | .ok (_, rest) => ∃ t0 tl, rest = t0 :: tl ∧ t0.kind = .EOF
  | .error _ => True

theorem inv_error {α : Type} {ts : List Token} {b : Bool} {e : PErr}
    (h : ∃ tok, e = PErr.unexpected tok) : Inv (α := α) ts b (.error e) :=
  ⟨trivial, h⟩

theorem inv_ok {α : Type} {ts rest : List Token} {b : Bool} {a : α}
    (h : Consumes ts rest b) : Inv ts b (.ok (a, rest)) :=
  ⟨h, trivial⟩

theorem inv_ok_elim {α : Type} {ts rest : List Token} {b : Bool}
    {r : Except PErr (α × List Token)} (hinv : Inv ts b r) {a : α}
    (h : r = .ok (a, rest)) : Consumes ts rest b := by
  rw [h] at hinv
  exact hinv.1

theorem inv_err_elim {α : Type} {ts : List Token} {b : Bool}
    {r : Except PErr (α × List Token)} (hinv : Inv ts b r) {e : PErr}
    (h : r = .error e) : ∃ tok, e = PErr.unexpected tok := by
  rw [h] at hinv
  exact hinv.2

/-- Compose a completed consumption with the invariant of a continuation. -/
theorem inv_after {α : Type} {ts ts1 : List Token} {b1 b2 : Bool}
    (hc1 : Consumes ts ts1 b1) {r : Except PErr (α × List Token)}
    (hinv : Inv ts1 b2 r) : Inv ts false r := by
  cases r with
  | error e => exact ⟨trivial, hinv.2⟩
  | ok p =>
    obtain ⟨a, rest⟩ := p
    exact ⟨(hc1.trans hinv.1).forget, trivial⟩

/-- As `inv_after`, but strict when the first consumption was strict. -/
theorem inv_after_strict {α : Type} {ts ts1 : List Token} {b2 : Bool}
    (hc1 : Consumes ts ts1 true) {r : Except PErr (α × List Token)}
    (hinv : Inv ts1 b2 r) : Inv ts true r := by
  cases r with
  | error e => exact ⟨trivial, hinv.2⟩
  | ok p =>
    obtain ⟨a, rest⟩ := p
    exact ⟨hc1.trans hinv.1, trivial⟩

theorem consumedOK_nonop {t : Token} {k : TokenType} (h : t.kind = k)
    (h1 : k ≠ .EOF) (h2 : k ≠ .OPERATOR) : ConsumedOK t := by
  constructor
  · rw [h]; exact h1
  · rintro ⟨hk, _⟩
    rw [h] at hk
    exact h2 hk

theorem consumedOK_op {t : Token} (h : t.kind = .OPERATOR)
    (hs : t.text ∉ forbiddenOps) : ConsumedOK t := by
  constructor
  · rw [h]; decide
  · rintro ⟨_, hm⟩
    exact hs hm

theorem term_op_not_forbidden {s : String} (h : s ∈ (["*", "/"] : List String)) :
    s ∉ forbiddenOps := by
  fin_cases h <;> decide

theorem expr_op_not_forbidden {s : String}
    (h : s ∈ (["+", "-", "<", ">", "=="] : List String)) : s ∉ forbiddenOps := by
  fin_cases h <;> decide

theorem pmatch_ok_none {tok : Token} {rest : List Token} {k : TokenType}
    (hk : tok.kind = k) : pmatch k none (tok :: rest) = .ok (tok, rest) := by
  simp [pmatch, hk]

theorem pmatch_ok_some {tok : Token} {rest : List Token} {k : TokenType} {s : String}
    (hk : tok.kind = k) (ht : tok.text = s) :
    pmatch k (some s) (tok :: rest) = .ok (tok, rest) := by
  simp [pmatch, hk, ht]

theorem pmatch_cases (k : TokenType) (v : Option String) (ts : List Token) :
    (∃ tok rest, ts = tok :: rest ∧ pmatch k v ts = .ok (tok, rest) ∧ tok.kind = k ∧
      ∀ s, v = some s → tok.text = s) ∨
    (∃ tok, pmatch k v ts = .error (.unexpected tok)) ∨
    (ts = [] ∧ pmatch k v ts = .error .outOfRange) := by
  match ts with
  | [] => right; right; exact ⟨rfl, rfl⟩
  | tok :: rest =>
    by_cases hk : tok.kind = k
    · cases v with
      | none => exact Or.inl ⟨tok, rest, rfl, pmatch_ok_none hk, hk, by simp⟩
      | some s =>
        by_cases ht : tok.text = s
        · refine Or.inl ⟨tok, rest, rfl, pmatch_ok_some hk ht, hk, ?_⟩
          intro s' hs'
          injection hs' with h
          rw [← h]
          exact ht
        · refine Or.inr (Or.inl ⟨tok, ?_⟩)
          simp [pmatch, hk, ht]
    · refine Or.inr (Or.inl ⟨tok, ?_⟩)
      simp [pmatch, hk]

/-- Constructor case analysis on a parser result, as equations. -/
theorem except_cases {α : Type} (r : Except PErr (α × List Token)) :
    (∃ a rest, r = .ok (a, rest)) ∨ (∃ e, r = .error e) := by
  cases r with
  | ok p => exact Or.inl ⟨p.1, p.2, rfl⟩
  | error e => exact Or.inr ⟨e, rfl⟩

/-- Combined invariant of all parser procedures, proved by induction on
fuel: with an EOF marker ahead and sufficient fuel, each procedure either
succeeds — consuming only legitimate tokens and leaving the EOF marker
ahead — or fails with a SyntaxError carrying a token. -/
theorem parser_inv : ∀ fuel : Nat,
    (∀ ts, HasEOF ts → 5 * ts.length + 1 ≤ fuel →
      Inv ts false (parse_factor fuel ts)) ∧
    (∀ left ts, HasEOF ts → 5 * ts.length + 2 ≤ fuel →
      Inv ts false (parse_term_loop fuel left ts)) ∧
    (∀ ts, HasEOF ts → 5 * ts.length + 3 ≤ fuel →
      Inv ts false (parse_term fuel ts)) ∧
    (∀ left ts, HasEOF ts → 5 * ts.length + 4 ≤ fuel →
      Inv ts false (parse_expression_loop fuel left ts)) ∧
    (∀ ts, HasEOF ts → 5 * ts.length + 5 ≤ fuel →
      Inv ts false (parse_expression fuel ts)) ∧
    (∀ ts, HasEOF ts → 5 * ts.length + 6 ≤ fuel →
      Inv ts true (parse_declaration fuel ts)) ∧
    (∀ ts, HasEOF ts → 5 * ts.length + 6 ≤ fuel →
      Inv ts true (parse_assignment fuel ts)) ∧
    (∀ ts, HasEOF ts → 5 * ts.length + 6 ≤ fuel →
      Inv ts true (parse_if fuel ts)) ∧
    (∀ ts, HasEOF ts → 5 * ts.length + 7 ≤ fuel →
      Inv ts true (parse_statement fuel ts)) ∧
    (∀ ts, HasEOF ts → 5 * ts.length + 8 ≤ fuel →
      Inv ts false (parse_program fuel ts) ∧ EofHeadSpec (parse_program fuel ts)) := by
  intro fuel
  induction fuel with
  | zero =>
    exact ⟨fun ts _ h => absurd h (by omega), fun left ts _ h => absurd h (by omega),
      fun ts _ h => absurd h (by omega), fun left ts _ h => absurd h (by omega),
      fun ts _ h => absurd h (by omega), fun ts _ h => absurd h (by omega),
      fun ts _ h => absurd h (by omega), fun ts _ h => absurd h (by omega),
      fun ts _ h => absurd h (by omega), fun ts _ h => absurd h (by omega)⟩
  | succ f ih =>
    obtain ⟨ihFac, ihTermLoop, ihTerm, ihExprLoop, ihExpr,
      ihDecl, ihAssign, ihIf, ihStmt, ihProg⟩ := ih
    refine ⟨?_, ?_, ?_, ?_, ?_, ?_, ?_, ?_, ?_, ?_⟩
    -- parse_factor
    · intro ts heof hfuel
      cases ts with
      | nil => exact absurd heof hasEOF_nil
      | cons tok rest =>
        simp only [List.length_cons] at hfuel
        simp only [parse_factor]
        by_cases h1 : tok.kind = .INTEGER
        · rw [if_pos h1]
          exact inv_ok ((Consumes.cons (consumedOK_nonop h1 (by decide) (by decide))
            (Consumes.refl (hasEOF_tail heof (by rw [h1]; decide)))).forget)
        · rw [if_neg h1]
          by_cases h2 : tok.kind = .IDENTIFIER
          · rw [if_pos h2]
            exact inv_ok ((Consumes.cons (consumedOK_nonop h2 (by decide) (by decide))
              (Consumes.refl (hasEOF_tail heof (by rw [h2]; decide)))).forget)
          · rw [if_neg h2]
            by_cases h3 : tok.kind = .SIGN ∧ tok.text = "("
            · rw [if_pos h3]
              simp only [pmatch_ok_some h3.1 h3.2]
              have heof2 : HasEOF rest := hasEOF_tail heof (by rw [h3.1]; decide)
              cases hre : parse_expression f rest with
              | error e => exact inv_error (inv_err_elim (ihExpr rest heof2 (by omega)) hre)
              | ok p =>
                obtain ⟨expr, ts3⟩ := p
                have hce : Consumes rest ts3 false :=
                  inv_ok_elim (ihExpr rest heof2 (by omega)) hre
                rcases pmatch_cases .SIGN (some ")") ts3 with
                  ⟨tok2, ts4, hts3, hpm, hk2, _⟩ | ⟨tok2, hpm⟩ | ⟨hnil, _⟩
                · subst hts3
                  simp only [hpm]
                  refine inv_ok ?_
                  have hc2 : Consumes (tok2 :: ts4) ts4 true :=
                    Consumes.cons (consumedOK_nonop hk2 (by decide) (by decide))
                      (Consumes.refl (hasEOF_tail hce.eof (by rw [hk2]; decide)))
                  exact (Consumes.cons (consumedOK_nonop h3.1 (by decide) (by decide))
                    ((hce.trans hc2).forget)).forget
                · simp only [hpm]
                  exact inv_error ⟨tok2, rfl⟩
                · exact absurd (hnil ▸ hce.eof) hasEOF_nil
            · rw [if_neg h3]
              exact inv_error ⟨tok, rfl⟩
    -- parse_term_loop
    · intro left ts heof hfuel
      cases ts with
      | nil => exact absurd heof hasEOF_nil
      | cons tok rest =>
        simp only [List.length_cons] at hfuel
        simp only [parse_term_loop]
        by_cases hcond : tok.kind = .OPERATOR ∧ tok.text ∈ (["*", "/"] : List String)
        · rw [if_pos hcond]
          simp only [pmatch_ok_none hcond.1]
          have heof1 : HasEOF rest := hasEOF_tail heof (by rw [hcond.1]; decide)
          have hok : ConsumedOK tok := consumedOK_op hcond.1 (term_op_not_forbidden hcond.2)
          cases hr1 : parse_factor f rest with
          | error e => exact inv_error (inv_err_elim (ihFac rest heof1 (by omega)) hr1)
          | ok p =>
            obtain ⟨right, ts3⟩ := p
            have hc1 : Consumes rest ts3 false :=
              inv_ok_elim (ihFac rest heof1 (by omega)) hr1
            have hlen := hc1.length_le
            exact inv_after (Consumes.cons hok hc1)
              (ihTermLoop (Expr.BinOp tok.text left right) ts3 hc1.eof (by omega))
        · rw [if_neg hcond]
          exact inv_ok (Consumes.refl heof)
    -- parse_term
    · intro ts heof hfuel
      simp only [parse_term]
      cases hr1 : parse_factor f ts with
      | error e => exact inv_error (inv_err_elim (ihFac ts heof (by omega)) hr1)
      | ok p =>
        obtain ⟨left, ts1⟩ := p
        have hc1 : Consumes ts ts1 false := inv_ok_elim (ihFac ts heof (by omega)) hr1
        have hlen := hc1.length_le
        exact inv_after hc1 (ihTermLoop left ts1 hc1.eof (by omega))
    -- parse_expression_loop
    · intro left ts heof hfuel
      cases ts with
      | nil => exact absurd heof hasEOF_nil
      | cons tok rest =>
        simp only [List.length_cons] at hfuel
        simp only [parse_expression_loop]
        by_cases hcond : tok.kind = .OPERATOR ∧
            tok.text ∈ (["+", "-", "<", ">", "=="] : List String)
        · rw [if_pos hcond]
          simp only [pmatch_ok_none hcond.1]
          have heof1 : HasEOF rest := hasEOF_tail heof (by rw [hcond.1]; decide)
          have hok : ConsumedOK tok := consumedOK_op hcond.1 (expr_op_not_forbidden hcond.2)
          cases hr1 : parse_term f rest with
          | error e => exact inv_error (inv_err_elim (ihTerm rest heof1 (by omega)) hr1)
          | ok p =>
            obtain ⟨right, ts3⟩ := p
            have hc1 : Consumes rest ts3 false :=
              inv_ok_elim (ihTerm rest heof1 (by omega)) hr1
            have hlen := hc1.length_le
            exact inv_after (Consumes.cons hok hc1)
              (ihExprLoop (Expr.BinOp tok.text left right) ts3 hc1.eof (by omega))
        · rw [if_neg hcond]
          exact inv_ok (Consumes.refl heof)
    -- parse_expression
    · intro ts heof hfuel
      simp only [parse_expression]
      cases hr1 : parse_term f ts with
      | error e => exact inv_error (inv_err_elim (ihTerm ts heof (by omega)) hr1)
      | ok p =>
        obtain ⟨left, ts1⟩ := p
        have hc1 : Consumes ts ts1 false := inv_ok_elim (ihTerm ts heof (by omega)) hr1
        have hlen := hc1.length_le
        exact inv_after hc1 (ihExprLoop left ts1 hc1.eof (by omega))
    -- parse_declaration
    · intro ts heof hfuel
      simp only [parse_declaration]
      rcases pmatch_cases .KEYWORD none ts with
        ⟨tk, ts1, hts, hpm, hk, _⟩ | ⟨tk, hpm⟩ | ⟨hnil, _⟩
      · subst hts
        simp only [hpm]
        simp only [List.length_cons] at hfuel
        have heof1 : HasEOF ts1 := hasEOF_tail heof (by rw [hk]; decide)
        have hokK : ConsumedOK tk := consumedOK_nonop hk (by decide) (by decide)
        rcases pmatch_cases .IDENTIFIER none ts1 with
          ⟨ti, ts2, hts1, hpm2, hk2, _⟩ | ⟨ti, hpm2⟩ | ⟨hnil2, _⟩
        · subst hts1
          simp only [List.length_cons] at hfuel
          have heof2 : HasEOF ts2 := hasEOF_tail heof1 (by rw [hk2]; decide)
          have hokI : ConsumedOK ti := consumedOK_nonop hk2 (by decide) (by decide)
          cases ts2 with
          | nil => exact absurd heof2 hasEOF_nil
          | cons tok rest2 =>
            simp only [hpm2]
            simp only [List.length_cons] at hfuel
            by_cases hop : tok.kind = .OPERATOR ∧ tok.text = "="
            · rw [if_pos hop]
              simp only [pmatch_ok_some hop.1 hop.2]
              have heof3 : HasEOF rest2 := hasEOF_tail heof2 (by rw [hop.1]; decide)
              have hokEq : ConsumedOK tok := consumedOK_op hop.1 (by rw [hop.2]; decide)
              cases hre : parse_expression f rest2 with
              | error e => exact inv_error (inv_err_elim (ihExpr rest2 heof3 (by omega)) hre)
              | ok p =>
                obtain ⟨expr, ts4⟩ := p
                have hce : Consumes rest2 ts4 false :=
                  inv_ok_elim (ihExpr rest2 heof3 (by omega)) hre
                rcases pmatch_cases .SIGN (some ";") ts4 with
                  ⟨tsm, ts5, hts4, hpm3, hk3, _⟩ | ⟨tsm, hpm3⟩ | ⟨hnil3, _⟩
                · subst hts4
                  simp only [hpm3]
                  refine inv_ok ?_
                  have hc5 : Consumes (tsm :: ts5) ts5 true :=
                    Consumes.cons (consumedOK_nonop hk3 (by decide) (by decide))
                      (Consumes.refl (hasEOF_tail hce.eof (by rw [hk3]; decide)))
                  exact Consumes.cons hokK ((Consumes.cons hokI ((Consumes.cons hokEq
                    ((hce.trans hc5).forget)).forget)).forget)
                · simp only [hpm3]
                  exact inv_error ⟨tsm, rfl⟩
                · exact absurd (hnil3 ▸ hce.eof) hasEOF_nil
            · rw [if_neg hop]
              rcases pmatch_cases .SIGN (some ";") (tok :: rest2) with
                ⟨tsm, ts3, hts2, hpm3, hk3, _⟩ | ⟨tsm, hpm3⟩ | ⟨hnil3, _⟩
              · simp only [hpm3]
                injection hts2 with ha hb
                subst ha
                subst hb
                refine inv_ok ?_
                exact Consumes.cons hokK ((Consumes.cons hokI ((Consumes.cons
                  (consumedOK_nonop hk3 (by decide) (by decide))
                  (Consumes.refl (hasEOF_tail heof2 (by rw [hk3]; decide)))).forget)).forget)
              · simp only [hpm3]
                exact inv_error ⟨tsm, rfl⟩
              · exact absurd hnil3 (by simp)
        · simp only [hpm2]
          exact inv_error ⟨ti, rfl⟩
        · exact absurd (hnil2 ▸ heof1) hasEOF_nil
      · simp only [hpm]
        exact inv_error ⟨tk, rfl⟩
      · exact absurd (hnil ▸ heof) hasEOF_nil
    -- parse_assignment
    · intro ts heof hfuel
      simp only [parse_assignment]
      rcases pmatch_cases .IDENTIFIER none ts with
        ⟨ti, ts1, hts, hpm, hk, _⟩ | ⟨ti, hpm⟩ | ⟨hnil, _⟩
      · subst hts
        simp only [hpm]
        simp only [List.length_cons] at hfuel
        have heof1 : HasEOF ts1 := hasEOF_tail heof (by rw [hk]; decide)
        have hokI : ConsumedOK ti := consumedOK_nonop hk (by decide) (by decide)
        rcases pmatch_cases .OPERATOR (some "=") ts1 with
          ⟨te, ts2, hts1, hpm2, hk2, hv2⟩ | ⟨te, hpm2⟩ | ⟨hnil2, _⟩
        · subst hts1
          simp only [hpm2]
          simp only [List.length_cons] at hfuel
          have heof2 : HasEOF ts2 := hasEOF_tail heof1 (by rw [hk2]; decide)
          have hokE : ConsumedOK te := consumedOK_op hk2 (by rw [hv2 "=" rfl]; decide)
          cases hre : parse_expression f ts2 with
          | error e => exact inv_error (inv_err_elim (ihExpr ts2 heof2 (by omega)) hre)
          | ok p =>
            obtain ⟨expr, ts3⟩ := p
            have hce : Consumes ts2 ts3 false :=
              inv_ok_elim (ihExpr ts2 heof2 (by omega)) hre
            rcases pmatch_cases .SIGN (some ";") ts3 with
              ⟨tsm, ts4, hts3, hpm3, hk3, _⟩ | ⟨tsm, hpm3⟩ | ⟨hnil3, _⟩
            · subst hts3
              simp only [hpm3]
              refine inv_ok ?_
              have hc4 : Consumes (tsm :: ts4) ts4 true :=
                Consumes.cons (consumedOK_nonop hk3 (by decide) (by decide))
                  (Consumes.refl (hasEOF_tail hce.eof (by rw [hk3]; decide)))
              exact Consumes.cons hokI ((Consumes.cons hokE ((hce.trans hc4).forget)).forget)
            · simp only [hpm3]
              exact inv_error ⟨tsm, rfl⟩
            · exact absurd (hnil3 ▸ hce.eof) hasEOF_nil
        · simp only [hpm2]
          exact inv_error ⟨te, rfl⟩
        · exact absurd (hnil2 ▸ heof1) hasEOF_nil
      · simp only [hpm]
        exact inv_error ⟨ti, rfl⟩
      · exact absurd (hnil ▸ heof) hasEOF_nil
    -- parse_if
    · intro ts heof hfuel
      simp only [parse_if]
      rcases pmatch_cases .KEYWORD (some "if") ts with
        ⟨t1, ts1, hts, hpm, hk, _⟩ | ⟨t1, hpm⟩ | ⟨hnil, _⟩
      · subst hts
        simp only [hpm]
        simp only [List.length_cons] at hfuel
        have heof1 : HasEOF ts1 := hasEOF_tail heof (by rw [hk]; decide)
        have hok1 : ConsumedOK t1 := consumedOK_nonop hk (by decide) (by decide)
        rcases pmatch_cases .SIGN (some "(") ts1 with
          ⟨t2, ts2, hts1, hpm2, hk2, _⟩ | ⟨t2, hpm2⟩ | ⟨hnil2, _⟩
        · subst hts1
          simp only [hpm2]
          simp only [List.length_cons] at hfuel
          have heof2 : HasEOF ts2 := hasEOF_tail heof1 (by rw [hk2]; decide)
          have hok2 : ConsumedOK t2 := consumedOK_nonop hk2 (by decide) (by decide)
          cases hre : parse_expression f ts2 with
          | error e => exact inv_error (inv_err_elim (ihExpr ts2 heof2 (by omega)) hre)
          | ok p =>
            obtain ⟨cond, ts3⟩ := p
            have hce : Consumes ts2 ts3 false :=
              inv_ok_elim (ihExpr ts2 heof2 (by omega)) hre
            have hlen3 := hce.length_le
            rcases pmatch_cases .SIGN (some ")") ts3 with
              ⟨t3, ts4, hts3, hpm3, hk3, _⟩ | ⟨t3, hpm3⟩ | ⟨hnil3, _⟩
            · subst hts3
              simp only [hpm3]
              simp only [List.length_cons] at hlen3
              have heof4 : HasEOF ts4 := hasEOF_tail hce.eof (by rw [hk3]; decide)
              have hok3 : ConsumedOK t3 := consumedOK_nonop hk3 (by decide) (by decide)
              cases hrs : parse_statement f ts4 with
              | error e => exact inv_error (inv_err_elim (ihStmt ts4 heof4 (by omega)) hrs)
              | ok p2 =>
                obtain ⟨stmt, ts5⟩ := p2
                have hcs : Consumes ts4 ts5 true :=
                  inv_ok_elim (ihStmt ts4 heof4 (by omega)) hrs
                refine inv_ok ?_
                exact Consumes.cons hok1 ((Consumes.cons hok2
                  ((hce.trans (Consumes.cons hok3 (hcs.forget))).forget)).forget)
            · simp only [hpm3]
              exact inv_error ⟨t3, rfl⟩
            · exact absurd (hnil3 ▸ hce.eof) hasEOF_nil
        · simp only [hpm2]
          exact inv_error ⟨t2, rfl⟩
        · exact absurd (hnil2 ▸ heof1) hasEOF_nil
      · simp only [hpm]
        exact inv_error ⟨t1, rfl⟩
      · exact absurd (hnil ▸ heof) hasEOF_nil
    -- parse_statement
    · intro ts heof hfuel
      cases ts with
      | nil => exact absurd heof hasEOF_nil
      | cons tok rest =>
        simp only [parse_statement]
        by_cases h1 : tok.kind = .KEYWORD ∧
            tok.text ∈ (["int", "float", "double"] : List String)
        · rw [if_pos h1]
          exact ihDecl (tok :: rest) heof
            (by simp only [List.length_cons] at hfuel ⊢; omega)
        · rw [if_neg h1]
          by_cases h2 : tok.kind = .KEYWORD ∧ tok.text = "if"
          · rw [if_pos h2]
            exact ihIf (tok :: rest) heof
              (by simp only [List.length_cons] at hfuel ⊢; omega)
          · rw [if_neg h2]
            by_cases h3 : tok.kind = .IDENTIFIER
            · rw [if_pos h3]
              exact ihAssign (tok :: rest) heof
                (by simp only [List.length_cons] at hfuel ⊢; omega)
            · rw [if_neg h3]
              exact inv_error ⟨tok, rfl⟩
    -- parse_program
    · intro ts heof hfuel
      cases ts with
      | nil => exact absurd heof hasEOF_nil
      | cons tok rest =>
        simp only [List.length_cons] at hfuel
        simp only [parse_program]
        by_cases he : tok.kind = .EOF
        · rw [if_pos he]
          exact ⟨inv_ok (Consumes.refl heof), ⟨tok, rest, rfl, he⟩⟩
        · rw [if_neg he]
          rcases except_cases (parse_statement f (tok :: rest)) with ⟨st, ts1, hrs⟩ | ⟨e, hrs⟩
          · simp only [hrs]
            have hcs : Consumes (tok :: rest) ts1 true :=
              inv_ok_elim (ihStmt _ heof (by simp only [List.length_cons]; omega)) hrs
            have hlen := hcs.length_lt
            simp only [List.length_cons] at hlen
            have hprog := ihProg ts1 hcs.eof (by omega)
            rcases except_cases (parse_program f ts1) with ⟨stmts, ts2, hrp⟩ | ⟨e2, hrp⟩
            · simp only [hrp]
              have hc2 : Consumes ts1 ts2 false := inv_ok_elim hprog.1 hrp
              refine ⟨inv_ok ((hcs.trans hc2).forget), ?_⟩
              have hx := hprog.2
              rw [hrp] at hx
              exact hx
            · simp only [hrp]
              exact ⟨inv_error (inv_err_elim hprog.1 hrp), trivial⟩
          · simp only [hrs]
            exact ⟨inv_error (inv_err_elim (ihStmt _ heof
              (by simp only [List.length_cons]; omega)) hrs), trivial⟩

/-- The invariant at the fuel value that `parse` supplies. -/
theorem parse_program_inv (ts : List Token) (heof : HasEOF ts) :
    Inv ts false (parse_program (5 * ts.length + 8) ts) ∧
      EofHeadSpec (parse_program (5 * ts.length + 8) ts) :=
  (parser_inv (5 * ts.length + 8)).2.2.2.2.2.2.2.2.2 ts heof (le_refl _)

/-! ### Property-level definitions used by the claims -/

/-- Does the token list contain an operator token whose text is lexically
recognized but never consumed by the grammar? -/
def hasForbiddenOp (ts : List Token) : Bool :=
  ts.any (fun t => t.kind == .OPERATOR &&
    (t.text == "!=" || t.text == "<=" || t.text == ">=" || t.text == "%"))

/-- Did `parse` fail with a SyntaxError (carrying a token)? -/
def isUnexpectedFailure : Except PErr Program → Bool
  | .error (.unexpected _) => true
  | _ => false

/-- Did `parse` return a Program or fail with a SyntaxError — as opposed
to an out-of-range access or fuel exhaustion? -/
def okOrUnexpected : Except PErr Program → Bool
  | .ok _ => true
  | .error (.unexpected _) => true
  | _ => false

/-- Plain concatenation of all token texts (whitespace discarded). -/
def concatTexts (ts : List Token) : String :=
  ts.foldr (fun t a => t.text ++ a) ""

/-- Space-separated reconstruction: each token text followed by one
space. -/
def joinTexts (ts : List Token) : String :=
  ts.foldr (fun t a => t.text ++ " " ++ a) ""

theorem mem_of_getLast?_eq {α : Type _} {l : List α} {a : α}
    (h : l.getLast? = some a) : a ∈ l := by
  obtain ⟨hne, rfl⟩ := List.mem_getLast?_eq_getLast (l := l) (x := a) (by rw [h]; exact rfl)
  exact List.getLast_mem hne

/-! ### The claims -/

/-- C1: `parse(tokenize("int x = 1 + 2 * 3;"))` returns the AST
`Program([Declaration("int", "x", BinaryOp("+", Number("1"),
BinaryOp("*", Number("2"), Number("3"))))])`: multiplication binds tighter
than addition and the declaration's initializer is the whole expression. -/
theorem claim_C1 :
    parse (lexical_analyzer_from_text "int x = 1 + 2 * 3;") =
      .ok ⟨[.Declaration "int" "x" (some (.BinOp "+" (.Number "1")
        (.BinOp "*" (.Number "2") (.Number "3"))))]⟩ := by
  rfl

/-- C2: for every input string, the tokenizer (a total Lean function, so
it terminates without raising any error) returns a non-empty sequence
whose last element — and only element of that kind — is an EOF token;
and an unrecognized character such as `@` becomes a single-character
UNKNOWN token rather than a failure. -/
theorem claim_C2 :
    (∀ s : String,
      ((lexical_analyzer_from_text s).map Token.kind).getLast? = some .EOF ∧
      (lexical_analyzer_from_text s).countP (fun t => t.kind == .EOF) = 1) ∧
    lexical_analyzer_from_text "@" =
      [⟨.UNKNOWN, "@", 1, 1⟩, ⟨.EOF, "", 1, 2⟩] := by
  constructor
  · intro s
    obtain ⟨pre, l2, c2, heq, hpre⟩ := lexRun_structure s.data 1 1
    have heq' : lexical_analyzer_from_text s = pre ++ [⟨.EOF, "", l2, c2⟩] := heq
    rw [heq']
    constructor
    · rw [List.map_append]
      exact List.getLast?_concat _
    · rw [List.countP_append,
        List.countP_eq_zero.mpr (fun t ht => by simp only [beq_iff_eq]; exact hpre t ht)]
      simp [List.countP_cons]
  · rfl

/-- C3: `parse(tokenize("int x 5;"))` raises a SyntaxError whose reported
token is the INTEGER token with text "5" at line 1, column 7 (after the
identifier, `=` or `;` was expected). -/
theorem claim_C3 :
    parse (lexical_analyzer_from_text "int x 5;") =
      .error (.unexpected ⟨.INTEGER, "5", 1, 7⟩) := by
  rfl

/-- C4: `tokenize("==")` yields exactly one OPERATOR token with text "=="
plus the trailing EOF token; and in general, when an operator character's
successor forms a member of the two-character operator set, both
characters are consumed into one token. -/
theorem claim_C4 :
    lexical_analyzer_from_text "==" =
      [⟨.OPERATOR, "==", 1, 1⟩, ⟨.EOF, "", 1, 3⟩] ∧
    (∀ (c d : Char) (rest : List Char) (l col : Nat), next_state 0 c = 6 →
      String.mk [c, d] ∈ DOUBLE_OPERATORS →
      lexRun (c :: d :: rest) l col =
        ⟨.OPERATOR, String.mk [c, d], l, col⟩ :: lexRun rest l (col + 2)) :=
  ⟨rfl, fun _ _ rest l col h hd => lexRun_op_double h hd rest l col⟩

/-- Witness for C4 at c = d = '=': both hypotheses hold and the merge
equation evaluates. -/
theorem claim_C4_witness :
    next_state 0 '=' = 6 ∧ String.mk ['=', '='] ∈ DOUBLE_OPERATORS ∧
    lexRun ['=', '='] 1 1 =
      ⟨.OPERATOR, String.mk ['=', '='], 1, 1⟩ :: lexRun [] 1 (1 + 2) :=
  ⟨by decide, by decide, claim_C4.2 '=' '=' [] 1 1 (by decide) (by decide)⟩

/-- C5: whenever the token sequence produced by the tokenizer contains an
OPERATOR token with text in {"!=", "<=", ">=", "%"}, `parse` fails with a
SyntaxError (it never returns a Program): these operators are lexically
recognized but no grammar rule consumes them. -/
theorem claim_C5 (s : String)
    (h : hasForbiddenOp (lexical_analyzer_from_text s) = true) :
    isUnexpectedFailure (parse (lexical_analyzer_from_text s)) = true := by
  obtain ⟨pre, l2, c2, heq, hpre⟩ := lexRun_structure s.data 1 1
  have heq' : lexical_analyzer_from_text s = pre ++ [⟨.EOF, "", l2, c2⟩] := heq
  have heof : HasEOF (lexical_analyzer_from_text s) :=
    ⟨⟨.EOF, "", l2, c2⟩,
      by rw [heq']; exact List.mem_append_right _ (List.mem_singleton_self _), rfl⟩
  obtain ⟨hinv, hspec⟩ := parse_program_inv _ heof
  have hforb : ∃ t ∈ lexical_analyzer_from_text s,
      t.kind = .OPERATOR ∧ t.text ∈ forbiddenOps := by
    unfold hasForbiddenOp at h
    rw [List.any_eq_true] at h
    obtain ⟨t, ht, hp⟩ := h
    simp only [Bool.and_eq_true, Bool.or_eq_true, beq_iff_eq] at hp
    refine ⟨t, ht, hp.1, ?_⟩
    have h4 : t.text = "!=" ∨ t.text = "<=" ∨ t.text = ">=" ∨ t.text = "%" := by tauto
    simp only [forbiddenOps, List.mem_cons, List.mem_singleton, List.not_mem_nil, or_false]
    tauto
  unfold parse
  rcases except_cases (parse_program (5 * (lexical_analyzer_from_text s).length + 8)
      (lexical_analyzer_from_text s)) with ⟨stmts, rest, hrp⟩ | ⟨e, hrp⟩
  · exfalso
    have hcons : Consumes (lexical_analyzer_from_text s) rest false := inv_ok_elim hinv hrp
    have hhead := hspec
    rw [hrp] at hhead
    obtain ⟨t0, tl, rfl, ht0⟩ := hhead
    obtain ⟨pre2, hts2, hpre2, _, _⟩ := hcons
    rw [heq'] at hts2
    rcases List.eq_nil_or_concat tl with rfl | ⟨tl', x, htl⟩
    · obtain ⟨t, htmem, htk, htf⟩ := hforb
      rw [heq', hts2] at htmem
      rcases List.mem_append.mp htmem with hm | hm
      · exact (hpre2 t hm).2 ⟨htk, htf⟩
      · rcases List.mem_cons.mp hm with rfl | hm2
        · rw [htk] at ht0
          exact absurd ht0 (by decide)
        · exact absurd hm2 (List.not_mem_nil t)
    · have htl2 : tl = tl' ++ [x] := by simpa [List.concat_eq_append] using htl
      subst htl2
      have hts3 : pre ++ [(⟨.EOF, "", l2, c2⟩ : Token)] = (pre2 ++ t0 :: tl') ++ [x] := by
        rw [hts2]
        simp [List.append_assoc]
      obtain ⟨hpre_eq, _⟩ := List.append_inj' hts3 (by simp)
      have ht0mem : t0 ∈ pre := by
        rw [hpre_eq]
        exact List.mem_append_right _ (List.mem_cons_self _ _)
      exact absurd ht0 (hpre t0 ht0mem)
  · rw [hrp]
    obtain ⟨tok, rfl⟩ := inv_err_elim hinv hrp
    rfl

/-- Witness for C5 at "x = 5 % 2;": the `%` operator token is present and
parsing fails with a SyntaxError. -/
theorem claim_C5_witness :
    hasForbiddenOp (lexical_analyzer_from_text "x = 5 % 2;") = true ∧
    isUnexpectedFailure (parse (lexical_analyzer_from_text "x = 5 % 2;")) = true :=
  ⟨by rfl, claim_C5 "x = 5 % 2;" (by rfl)⟩

/-- C6: token positions are non-decreasing in sequence order (line, then
column), positions are 1-based, the line is constant on newline-free
input, and passing a newline increments the line and resets the column
counter to 1. -/
theorem claim_C6 :
    (∀ s : String,
      posMono (lexical_analyzer_from_text s) = true ∧
      (lexical_analyzer_from_text s).all (fun t => decide (1 ≤ t.line) &&
        decide (1 ≤ t.col)) = true ∧
      ((s.data.contains '\n') = false →
        (lexical_analyzer_from_text s).all (fun t => t.line == 1) = true)) ∧
    (∀ (cs : List Char) (l c : Nat), lexRun ('\n' :: cs) l c = lexRun cs (l + 1) 1) := by
  constructor
  · intro s
    obtain ⟨hall, hmono⟩ := lexRun_pos s.data 1 1
    refine ⟨hmono, ?_, ?_⟩
    · rw [List.all_eq_true]
      intro t ht
      have h2 := (hall t ht).2.1 (le_refl 1)
      have h1 : 1 ≤ t.line := by
        rcases (hall t ht).1 with h | ⟨h, _⟩ <;> omega
      simp [h1, h2]
    · intro hnl
      rw [List.all_eq_true]
      intro t ht
      have hnotin : '\n' ∉ s.data := by
        intro hm
        rw [List.contains_eq_any_beq, List.any_eq_false] at hnl
        exact absurd (by simp : ('\n' == '\n') = true) (by simpa using hnl '\n' hm)
      have := (hall t ht).2.2 hnotin
      simp [this]
  · intro cs l c
    exact lexRun_newline cs l c

/-- Witness for C6 on the newline-free input "int x = 1;". -/
theorem claim_C6_witness :
    ("int x = 1;" : String).data.contains '\n' = false ∧
    (lexical_analyzer_from_text "int x = 1;").all (fun t => t.line == 1) = true ∧
    posMono (lexical_analyzer_from_text "int x = 1;") = true :=
  ⟨by rfl, (claim_C6.1 "int x = 1;").2.2 (by rfl), (claim_C6.1 "int x = 1;").1⟩

/-- C7: concatenating the texts of all tokens yields exactly the input
with its whitespace (including newlines) removed — so every
non-whitespace character appears in exactly one token's text, in order,
none dropped or duplicated. -/
theorem claim_C7 : ∀ s : String,
    textConcat (lexical_analyzer_from_text s) =
      s.data.filter (fun ch => !isSpacePy ch) :=
  fun s => lexRun_concat s.data 1 1

/-- C8 counterexample: plain concatenation of token texts does not
preserve the kind sequence — "1 2" lexes to two INTEGER tokens, but the
concatenation "12" lexes back to one. -/
theorem claim_C8_counterexample :
    ¬((lexical_analyzer_from_text (concatTexts (lexical_analyzer_from_text "1 2"))).map
        Token.kind =
      (lexical_analyzer_from_text "1 2").map Token.kind) := by
  decide

/-- C8 (amended): re-tokenizing the space-separated reconstruction of the
token texts (each token text followed by one space) yields the same
sequence of token kinds as the original tokenization. -/
theorem claim_C8 : ∀ s : String,
    (lexical_analyzer_from_text (joinTexts (lexical_analyzer_from_text s))).map Token.kind =
      (lexical_analyzer_from_text s).map Token.kind := by
  intro s
  obtain ⟨pre, l2, c2, heq, hpre⟩ := lexRun_structure s.data 1 1
  have hwfAll := lexRun_wf s.data 1 1
  have heq' : lexical_analyzer_from_text s = pre ++ [⟨.EOF, "", l2, c2⟩] := heq
  rw [heq']
  have hjoin : joinTexts (pre ++ [⟨.EOF, "", l2, c2⟩]) =
      pre.foldr (fun t a => t.text ++ " " ++ a) " " := by
    unfold joinTexts
    rw [List.foldr_append]
    rfl
  rw [hjoin]
  have hrelex := relex_list pre
    (fun t ht => ⟨hwfAll t (by rw [heq]; exact List.mem_append_left _ ht), hpre t ht⟩)
    " " (fun x hx => by simpa using hx) 1 1
  show (lexRun (pre.foldr (fun t a => t.text ++ " " ++ a) " ").data 1 1).map Token.kind = _
  rw [hrelex, List.map_append]
  rfl

/-- C9: for every token sequence whose last element is the EOF marker (as
the tokenizer always produces), `parse` either returns a Program or fails
with a SyntaxError — never with the out-of-range access that `peek` past
the end of the token list would be, because no grammar rule ever consumes
the EOF token. -/
theorem claim_C9 (ts : List Token)
    (h : (ts.map Token.kind).getLast? = some .EOF) :
    okOrUnexpected (parse ts) = true := by
  rw [List.getLast?_map] at h
  cases hl : ts.getLast? with
  | none => rw [hl] at h; simp at h
  | some t =>
    rw [hl] at h
    have hk : t.kind = .EOF := by
      simp only [Option.map_some'] at h
      injection h
    have heof : HasEOF ts := ⟨t, mem_of_getLast?_eq hl, hk⟩
    obtain ⟨hinv, hspec⟩ := parse_program_inv ts heof
    unfold parse
    rcases except_cases (parse_program (5 * ts.length + 8) ts) with
      ⟨stmts, rest, hrp⟩ | ⟨e, hrp⟩
    · rw [hrp]
      rfl
    · rw [hrp]
      obtain ⟨tok, rfl⟩ := inv_err_elim hinv hrp
      rfl

/-- Witness for C9 at the minimal sequence containing only the EOF
marker. -/
theorem claim_C9_witness :
    (([⟨TokenType.EOF, "", 1, 1⟩] : List Token).map Token.kind).getLast? =
      some TokenType.EOF ∧
    okOrUnexpected (parse [⟨TokenType.EOF, "", 1, 1⟩]) = true :=
  ⟨by rfl, claim_C9 [⟨TokenType.EOF, "", 1, 1⟩] (by rfl)⟩

/-- C10: `tokenize("")` returns exactly the one-element sequence with the
EOF token at line 1, column 1; and any input consisting only of
whitespace and newlines yields only the EOF token. -/
theorem claim_C10 :
    lexical_analyzer_from_text "" = [⟨.EOF, "", 1, 1⟩] ∧
    (∀ s : String, s.data.all isSpacePy = true →
      (lexical_analyzer_from_text s).map Token.kind = [.EOF]) :=
  ⟨rfl, fun s h => lexRun_allspace s.data 1 1 (List.all_eq_true.mp h)⟩

/-- Witness for C10 on the whitespace-only input " \n\t". -/
theorem claim_C10_witness :
    (" \n\t" : String).data.all isSpacePy = true ∧
    (lexical_analyzer_from_text " \n\t").map Token.kind = [TokenType.EOF] :=
  ⟨by rfl, claim_C10.2 " \n\t" (by rfl)⟩

end LexParse
